import Mathlib

/-!
# UnityMCP bridge core — verification of the spec's claims against the source

This file shallowly embeds the parts of the UnityMCP repository that the
claims concern:

* the JSON wire values exchanged on the TCP stream, with a model of
  `JSON.stringify` (`stringify`) and of `JSON.parse` (`jsonParse`) on the
  minified grammar that `JSON.stringify` emits;
* the bridge-side per-client framer `handleClientData` and the message
  dispatcher `processClientMessage` of `UnityConnection` (server mode);
* the hub state machine of `UnityConnection` (clients / active client /
  pending requests / buffers / client info), with its transitions
  `serverConnect` (the `net.createServer` connection callback),
  `onSocketClose` (the socket `close` handler), `handleRegistration`,
  `sendRequest`, `setActiveClient`, `getConnectedClients`, `clearClients`;
* the editor-side dispatcher's buffering `csProcessData`
  (`McpServer.ProcessData` in C#);
* the MCP adapter's tool callback (`HandlerAdapter.registerHandlerTools`),
  prompt template substitution (`HandlerAdapter.applyTemplateParams`),
  the `unity_listClients` synthetic tool (`UnityClientHandler`), and
  `BaseCommandHandler.execute`.

Modelling conventions: TCP byte streams are modelled at the character level
(`List Char`); multi-byte UTF-8 decoding effects of `Buffer.toString` are
outside the model.  JavaScript `Map`s are insertion-ordered association
lists (`mapSet`, `mapDelete`, `mapGet`).  Promise resolution/rejection and
socket writes are recorded as explicit events.  JavaScript truthiness is
`truthy` / `truthyOpt` (an absent field is `undefined`, hence falsy).
-/

/-! ## JSON values

The wire values.  Numbers are modelled as integers (every number the bridge
itself puts on the wire is one); strings are Unicode character sequences.
-/

inductive Json where
  | null : Json
  | bool : Bool → Json
  | num : Int → Json
  | str : String → Json
  | arr : List Json → Json
  | obj : List (String × Json) → Json
deriving Inhabited

mutual
/-- Boolean equality on JSON values (the derive handler does not cover this
nested inductive, so it is spelled out and proved lawful below). -/
def beqJ : Json → Json → Bool
  | .null, .null => true
  | .bool a, .bool b => a = b
  | .num a, .num b => a = b
  | .str a, .str b => a = b
  | .arr a, .arr b => beqItemsJ a b
  | .obj a, .obj b => beqPairsJ a b
  | _, _ => false
/-- Boolean equality on JSON value lists. -/
def beqItemsJ : List Json → List Json → Bool
  | [], [] => true
  | a :: as, b :: bs => beqJ a b && beqItemsJ as bs
  | _, _ => false
/-- Boolean equality on JSON member lists. -/
def beqPairsJ : List (String × Json) → List (String × Json) → Bool
  | [], [] => true
  | (k, a) :: as, (l, b) :: bs => k = l && beqJ a b && beqPairsJ as bs
  | _, _ => false
end

mutual
theorem beqJ_iff : ∀ a b : Json, beqJ a b = true ↔ a = b
  | .null, b => by cases b <;> simp [beqJ]
  | .bool x, b => by cases b <;> simp [beqJ]
  | .num x, b => by cases b <;> simp [beqJ]
  | .str x, b => by cases b <;> simp [beqJ]
  | .arr xs, b => by
    cases b <;> simp [beqJ]
    exact beqItemsJ_iff xs _
  | .obj xs, b => by
    cases b <;> simp [beqJ]
    exact beqPairsJ_iff xs _
theorem beqItemsJ_iff : ∀ a b : List Json, beqItemsJ a b = true ↔ a = b
  | [], b => by cases b <;> simp [beqItemsJ]
  | x :: xs, b => by
    cases b with
    | nil => simp [beqItemsJ]
    | cons y ys =>
      simp only [beqItemsJ, Bool.and_eq_true, List.cons.injEq]
      exact and_congr (beqJ_iff x y) (beqItemsJ_iff xs ys)
theorem beqPairsJ_iff : ∀ a b : List (String × Json), beqPairsJ a b = true ↔ a = b
  | [], b => by cases b <;> simp [beqPairsJ]
  | (k, x) :: xs, b => by
    cases b with
    | nil => simp [beqPairsJ]
    | cons y ys =>
      obtain ⟨l, v⟩ := y
      simp only [beqPairsJ, Bool.and_eq_true, List.cons.injEq, Prod.mk.injEq,
        decide_eq_true_eq]
      rw [beqJ_iff x v, beqPairsJ_iff xs ys, and_assoc]
end

instance : DecidableEq Json := fun a b =>
  decidable_of_iff (beqJ a b = true) (beqJ_iff a b)

/-- Is this value a JSON object (`{...}`)? -/
def Json.isObj : Json → Bool
  | .obj _ => true
  | _ => false

/-- Field lookup on an object, `undefined` (i.e. `none`) otherwise or when
the key is absent.  Models JavaScript property access `o.k` on a parsed
JSON value. -/
def jget (j : Json) (key : String) : Option Json :=
  match j with
  | .obj kvs => (kvs.find? (fun kv => kv.1 = key)).map (fun kv => kv.2)
  | _ => none

/-- JavaScript truthiness of a JSON value. -/
def truthy : Json → Bool
  | .null => false
  | .bool b => b
  | .num n => n ≠ 0
  | .str s => s ≠ ""
  | .arr _ => true
  | .obj _ => true

/-- Truthiness of a possibly-absent value (`undefined` is falsy). -/
def truthyOpt : Option Json → Bool
  | none => false
  | some v => truthy v

/-! ## `JSON.stringify` (the serializer)

`JSON.stringify` on the values above: minified (no interior whitespace),
insertion-ordered object keys, strings escaped with `\" \\ \n \r \t`.
Output is a character list so that framing proofs can reason over `++`.
-/

/-- One string character, JSON-escaped. -/
def escC (c : Char) : List Char :=
  if c = '"' then ['\\', '"']
  else if c = '\\' then ['\\', '\\']
  else if c = '\n' then ['\\', 'n']
  else if c = '\r' then ['\\', 'r']
  else if c = '\t' then ['\\', 't']
  else [c]

/-- A JSON string literal: quote, escaped body, quote. -/
def serStr (s : String) : List Char :=
  '"' :: (s.toList.flatMap escC ++ ['"'])

/-- Decimal digit characters of a natural number, most significant first. -/
def natChars (n : Nat) : List Char :=
  if h : n < 10 then [Char.ofNat (48 + n)]
  else natChars (n / 10) ++ [Char.ofNat (48 + n % 10)]
termination_by n
decreasing_by exact Nat.div_lt_self (by omega) (by omega)

/-- Decimal character form of an integer (minus sign, then digits). -/
def serInt (i : Int) : List Char :=
  (if i < 0 then ['-'] else []) ++ natChars i.natAbs

mutual
/-- `JSON.stringify`, to characters. -/
def serJ : Json → List Char
  | .null => ['n', 'u'] ++ ['l', 'l']
  | .bool true => ['t', 'r'] ++ ['u', 'e']
  | .bool false => ['f', 'a', 'l'] ++ ['s', 'e']
  | .num n => serInt n
  | .str s => serStr s
  | .arr es => '[' :: (serItems es ++ [']'])
  | .obj kvs => '{' :: (serPairs kvs ++ ['}'])
/-- Array elements, comma-separated. -/
def serItems : List Json → List Char
  | [] => []
  | [e] => serJ e
  | e :: es => serJ e ++ ',' :: serItems es
/-- Object members `"k":v`, comma-separated. -/
def serPairs : List (String × Json) → List Char
  | [] => []
  | [(k, v)] => serStr k ++ ':' :: serJ v
  | (k, v) :: kvs => serStr k ++ ':' :: serJ v ++ ',' :: serPairs kvs
end

/-- `JSON.stringify` as a `String`. -/
def stringify (j : Json) : String := String.mk (serJ j)

/-! ## `JSON.parse` (the parser)

A recursive-descent parser over characters, structural on a fuel counter
(any fuel beyond the input length is enough).  It accepts exactly the
minified grammar `serJ` emits, plus surrounding whitespace in `jsonParse`;
this is the fragment of `JSON.parse` the bridge ever exercises, since every
message on the wire is a `JSON.stringify` output or a prefix of one.
-/

/-- JSON whitespace. -/
def isWsC (c : Char) : Bool := c = ' ' || c = '\n' || c = '\t' || c = '\r'

/-- Drop leading whitespace. -/
def dropWs (s : List Char) : List Char := s.dropWhile isWsC

/-- Is this an ASCII decimal digit? -/
def isDig (c : Char) : Bool := '0' ≤ c && c ≤ '9'

/-- The numeric value of a digit run. -/
def digVal (ds : List Char) : Nat :=
  ds.foldl (fun a c => a * 10 + (c.toNat - 48)) 0

/-- Undo one escape character. -/
def unescC : Char → Option Char
  | 'n' => some '\n'
  | 't' => some '\t'
  | 'r' => some '\r'
  | '"' => some '"'
  | '\\' => some '\\'
  | '/' => some '/'
  | _ => none

/-- Parse a string body after the opening quote, accumulating in reverse. -/
def strBody (acc : List Char) : List Char → Option (String × List Char)
  | [] => none
  | '"' :: r => some (String.mk acc.reverse, r)
  | '\\' :: e :: r =>
    match unescC e with
    | some ch => strBody (ch :: acc) r
    | none => none
  | c :: r => strBody (c :: acc) r

/-- Parse an integer: optional minus sign, then a nonempty digit run. -/
def numToken : List Char → Option (Int × List Char)
  | '-' :: r =>
    match r.takeWhile isDig, r.dropWhile isDig with
    | [], _ => none
    | ds, r2 => some (-(digVal ds : Int), r2)
  | s =>
    match s.takeWhile isDig, s.dropWhile isDig with
    | [], _ => none
    | ds, r2 => some ((digVal ds : Int), r2)

mutual
/-- Parse one JSON value from the front of the input. -/
def parseV : Nat → List Char → Option (Json × List Char)
  | 0, _ => none
  | _ + 1, [] => none
  | fuel + 1, c :: r =>
    if c = 'n' then
      match r with
      | 'u' :: 'l' :: 'l' :: r2 => some (.null, r2)
      | _ => none
    else if c = 't' then
      match r with
      | 'r' :: 'u' :: 'e' :: r2 => some (.bool true, r2)
      | _ => none
    else if c = 'f' then
      match r with
      | 'a' :: 'l' :: 's' :: 'e' :: r2 => some (.bool false, r2)
      | _ => none
    else if c = '"' then
      match strBody [] r with
      | some (s, r2) => some (.str s, r2)
      | none => none
    else if c = '[' then
      match r with
      | ']' :: r2 => some (.arr [], r2)
      | _ =>
        match parseItems fuel r with
        | some (es, r2) => some (.arr es, r2)
        | none => none
    else if c = '{' then
      match r with
      | '}' :: r2 => some (.obj [], r2)
      | _ =>
        match parsePairs fuel r with
        | some (kvs, r2) => some (.obj kvs, r2)
        | none => none
    else if c = '-' || isDig c then
      match numToken (c :: r) with
      | some (n, r2) => some (.num n, r2)
      | none => none
    else none
/-- Parse one-or-more comma-separated array elements and the closing `]`. -/
def parseItems : Nat → List Char → Option (List Json × List Char)
  | 0, _ => none
  | fuel + 1, s =>
    match parseV fuel s with
    | none => none
    | some (v, r) =>
      match r with
      | ',' :: r2 =>
        match parseItems fuel r2 with
        | some (es, r3) => some (v :: es, r3)
        | none => none
      | ']' :: r2 => some ([v], r2)
      | _ => none
/-- Parse one-or-more comma-separated object members and the closing `}`. -/
def parsePairs : Nat → List Char → Option (List (String × Json) × List Char)
  | 0, _ => none
  | fuel + 1, s =>
    match s with
    | '"' :: r =>
      match strBody [] r with
      | none => none
      | some (k, r1) =>
        match r1 with
        | ':' :: r2 =>
          match parseV fuel r2 with
          | none => none
          | some (v, r3) =>
            match r3 with
            | ',' :: r4 =>
              match parsePairs fuel r4 with
              | some (kvs, r5) => some ((k, v) :: kvs, r5)
              | none => none
            | '}' :: r4 => some ([(k, v)], r4)
            | _ => none
        | _ => none
    | _ => none
end

/-- `JSON.parse` on a whole input: surrounding whitespace allowed, a single
value, nothing else.  `none` models a thrown `SyntaxError`. -/
def jsonParse (s : List Char) : Option Json :=
  match parseV (s.length + 1) (dropWs s) with
  | some (v, r) => if dropWs r = [] then some v else none
  | none => none

/-! ## Codec round-trip: `jsonParse` inverts `stringify`

`rtV` below: parsing a serialized value, followed by any remainder that does
not begin with a digit, yields the value and the remainder.
-/

/-- Does the input begin with a decimal digit? -/
def digHead : List Char → Bool
  | [] => false
  | c :: _ => isDig c

theorem takeWhile_append_of_forall {p : Char → Bool} {xs ys : List Char}
    (hxs : ∀ c ∈ xs, p c = true) (hys : ∀ c t, ys = c :: t → p c = false) :
    (xs ++ ys).takeWhile p = xs ∧ (xs ++ ys).dropWhile p = ys := by
  induction xs with
  | nil =>
    simp only [List.nil_append]
    cases ys with
    | nil => simp
    | cons c t => simp [List.takeWhile, List.dropWhile, hys c t rfl]
  | cons x xs ih =>
    have hx : p x = true := hxs x (by simp)
    have := ih (fun c hc => hxs c (by simp [hc]))
    simp [List.takeWhile, List.dropWhile, hx, this.1, this.2]

theorem natChars_ne_nil (n : Nat) : natChars n ≠ [] := by
  rw [natChars]
  split <;> simp

theorem natChars_digits (n : Nat) : ∀ c ∈ natChars n, isDig c = true := by
  induction n using Nat.strongRecOn with
  | _ n ih =>
    rw [natChars]
    split
    · rename_i h
      intro c hc
      simp only [List.mem_singleton] at hc
      subst hc
      interval_cases n <;> decide
    · rename_i h
      intro c hc
      rw [List.mem_append] at hc
      rcases hc with hc | hc
      · exact ih (n / 10) (Nat.div_lt_self (by omega) (by omega)) c hc
      · simp only [List.mem_singleton] at hc
        subst hc
        have : n % 10 < 10 := Nat.mod_lt _ (by omega)
        interval_cases h10 : n % 10 <;> simp_all <;> decide

theorem digVal_append (xs ys : List Char) :
    digVal (xs ++ ys) = ys.foldl (fun a c => a * 10 + (c.toNat - 48)) (digVal xs) := by
  simp [digVal, List.foldl_append]

theorem digVal_natChars (n : Nat) : digVal (natChars n) = n := by
  induction n using Nat.strongRecOn with
  | _ n ih =>
    rw [natChars]
    split
    · rename_i h
      interval_cases n <;> decide
    · rename_i h
      rw [digVal_append, List.foldl_cons, List.foldl_nil,
        ih (n / 10) (Nat.div_lt_self (by omega) (by omega))]
      have h10 : n % 10 < 10 := Nat.mod_lt _ (by omega)
      have hc : (Char.ofNat (48 + n % 10)).toNat = 48 + n % 10 := by
        interval_cases hm : n % 10 <;> decide
      rw [hc]
      omega

theorem isDig_not_minus {c : Char} (h : isDig c = true) : c ≠ '-' := by
  intro hc
  subst hc
  exact absurd h (by decide)

theorem digHead_head {rest : List Char} (hr : digHead rest = false) :
    ∀ c t, rest = c :: t → isDig c = false := by
  intro c t ht
  subst ht
  simpa [digHead] using hr

/-- `numToken` inverts `serInt` in front of any non-digit remainder. -/
theorem numToken_serInt (i : Int) (rest : List Char) (hr : digHead rest = false) :
    numToken (serInt i ++ rest) = some (i, rest) := by
  have hdig := natChars_digits i.natAbs
  have hsplit := takeWhile_append_of_forall hdig (digHead_head hr)
  by_cases hneg : i < 0
  · have harg : serInt i ++ rest = '-' :: (natChars i.natAbs ++ rest) := by
      simp [serInt, hneg]
    rw [harg]
    simp only [numToken]
    rw [hsplit.1, hsplit.2]
    obtain ⟨c, t, hct⟩ : ∃ c t, natChars i.natAbs = c :: t := by
      cases h : natChars i.natAbs with
      | nil => exact absurd h (natChars_ne_nil _)
      | cons c t => exact ⟨c, t, rfl⟩
    rw [hct]
    simp only [Option.some.injEq, Prod.mk.injEq]
    refine ⟨?_, trivial⟩
    rw [← hct, digVal_natChars]
    omega
  · obtain ⟨c, t, hct⟩ : ∃ c t, natChars i.natAbs = c :: t := by
      cases h : natChars i.natAbs with
      | nil => exact absurd h (natChars_ne_nil _)
      | cons c t => exact ⟨c, t, rfl⟩
    have hc : isDig c = true := hdig c (by rw [hct]; simp)
    have harg : serInt i ++ rest = c :: (t ++ rest) := by
      simp [serInt, hneg, hct]
    rw [harg]
    rw [numToken.eq_def]
    split
    · rename_i heq
      exact (isDig_not_minus hc (List.cons.inj heq).1).elim
    · rename_i s hs
      rw [← harg]
      have harg2 : serInt i ++ rest = natChars i.natAbs ++ rest := by
        simp [serInt, hneg]
      rw [harg2, hsplit.1, hsplit.2, hct]
      simp only [← hct, Option.some.injEq, Prod.mk.injEq]
      refine ⟨?_, trivial⟩
      rw [digVal_natChars]
      omega

/-- Consuming one escaped character undoes its escaping. -/
theorem strBody_escC (c : Char) (acc rest : List Char) :
    strBody acc (escC c ++ rest) = strBody (c :: acc) rest := by
  by_cases h1 : c = '"'
  · subst h1; simp [escC, strBody, unescC]
  by_cases h2 : c = '\\'
  · subst h2; simp [escC, strBody, unescC]
  by_cases h3 : c = '\n'
  · subst h3; simp [escC, strBody, unescC]
  by_cases h4 : c = '\r'
  · subst h4; simp [escC, strBody, unescC]
  by_cases h5 : c = '\t'
  · subst h5; simp [escC, strBody, unescC]
  have harg : escC c ++ rest = c :: rest := by simp [escC, h1, h2, h3, h4, h5]
  rw [harg, strBody.eq_def]
  split
  · rename_i heq; exact absurd heq (by simp)
  · rename_i heq; exact absurd (List.cons.inj heq).1 h1
  · rename_i e r heq; exact absurd (List.cons.inj heq).1 h2
  · rename_i x r heq
    obtain ⟨hx, hr⟩ := List.cons.inj heq
    subst hx; subst hr; rfl

/-- Parsing an escaped string body stops exactly at the closing quote. -/
theorem strBody_flatMap (cs : List Char) : ∀ (acc rest : List Char),
    strBody acc (cs.flatMap escC ++ '"' :: rest)
      = some (String.mk (acc.reverse ++ cs), rest) := by
  induction cs with
  | nil => intro acc rest; simp [strBody]
  | cons c cs ih =>
    intro acc rest
    rw [List.flatMap_cons, List.append_assoc, strBody_escC, ih]
    simp

/-- The string codec round-trip. -/
theorem strBody_serStr (s : String) (rest : List Char) :
    strBody [] (s.toList.flatMap escC ++ '"' :: rest) = some (s, rest) := by
  rw [strBody_flatMap]
  rfl

/-- Every serialized value starts with one of the parser's dispatch
characters: `n`, `t`, `f`, `"`, `[`, `{`, `-`, or a digit. -/
theorem serJ_head (v : Json) :
    ∃ c t, serJ v = c :: t ∧
      (c = 'n' ∨ c = 't' ∨ c = 'f' ∨ c = '"' ∨ c = '[' ∨ c = '{' ∨
        c = '-' ∨ isDig c = true) := by
  cases v with
  | null => exact ⟨'n', _, rfl, by simp⟩
  | bool b => cases b with
    | true => exact ⟨'t', _, rfl, by simp⟩
    | false => exact ⟨'f', _, rfl, by simp⟩
  | str s => exact ⟨'"', _, rfl, by simp [serJ, serStr]⟩
  | arr es => exact ⟨'[', _, rfl, by simp⟩
  | obj kvs => exact ⟨'{', _, rfl, by simp⟩
  | num n =>
    by_cases hneg : n < 0
    · refine ⟨'-', natChars n.natAbs, ?_, by simp⟩
      simp [serJ, serInt, hneg]
    · obtain ⟨c, t, hct⟩ : ∃ c t, natChars n.natAbs = c :: t := by
        cases h : natChars n.natAbs with
        | nil => exact absurd h (natChars_ne_nil _)
        | cons c t => exact ⟨c, t, rfl⟩
      refine ⟨c, t, by simp [serJ, serInt, hneg, hct], ?_⟩
      have := natChars_digits n.natAbs c (by rw [hct]; simp)
      simp [this]

theorem serJ_head_ne {v : Json} {c : Char} {t : List Char}
    (hct : serJ v = c :: t) :
    c ≠ ']' ∧ c ≠ '}' ∧ c ≠ ',' ∧ c ≠ ':' ∧ isWsC c = false := by
  obtain ⟨c', t', hct', hc⟩ := serJ_head v
  rw [hct] at hct'
  obtain ⟨rfl, rfl⟩ := List.cons.inj hct'
  rcases hc with h | h | h | h | h | h | h | h
  · subst h; refine ⟨by decide, by decide, by decide, by decide, by decide⟩
  · subst h; refine ⟨by decide, by decide, by decide, by decide, by decide⟩
  · subst h; refine ⟨by decide, by decide, by decide, by decide, by decide⟩
  · subst h; refine ⟨by decide, by decide, by decide, by decide, by decide⟩
  · subst h; refine ⟨by decide, by decide, by decide, by decide, by decide⟩
  · subst h; refine ⟨by decide, by decide, by decide, by decide, by decide⟩
  · subst h; refine ⟨by decide, by decide, by decide, by decide, by decide⟩
  · refine ⟨?_, ?_, ?_, ?_, ?_⟩
    · intro he; subst he; exact absurd h (by decide)
    · intro he; subst he; exact absurd h (by decide)
    · intro he; subst he; exact absurd h (by decide)
    · intro he; subst he; exact absurd h (by decide)
    · revert h
      unfold isDig isWsC
      intro h
      rcases Bool.and_eq_true .. |>.mp h with ⟨h1, h2⟩
      simp only [Bool.or_eq_false_iff, decide_eq_false_iff_not]
      refine ⟨⟨⟨?_, ?_⟩, ?_⟩, ?_⟩ <;>
        (intro he; subst he; simp_all)

theorem isDig_ne_starts {c : Char} (h : isDig c = true) :
    c ≠ 'n' ∧ c ≠ 't' ∧ c ≠ 'f' ∧ c ≠ '"' ∧ c ≠ '[' ∧ c ≠ '{' := by
  have hgo : ∀ d : Char, isDig d = false → c ≠ d := by
    intro d hd he
    subst he
    rw [hd] at h
    exact Bool.noConfusion h
  exact ⟨hgo _ (by decide), hgo _ (by decide), hgo _ (by decide),
    hgo _ (by decide), hgo _ (by decide), hgo _ (by decide)⟩

/-- The parser's number branch, isolated: a `-` or digit head dispatches to
`numToken`. -/
theorem parseV_num_go (f : Nat) (c : Char) (r : List Char)
    (hc : c = '-' ∨ isDig c = true) :
    parseV (f + 1) (c :: r)
      = (match numToken (c :: r) with
         | some (n, r2) => some (Json.num n, r2)
         | none => none) := by
  rcases hc with hc | hc
  · subst hc
    simp [parseV]
  · obtain ⟨h1, h2, h3, h4, h5, h6⟩ := isDig_ne_starts hc
    simp [parseV, h1, h2, h3, h4, h5, h6, hc]

theorem serItems_cons_head (e : Json) (es : List Json) :
    ∃ c t t2, serJ e = c :: t ∧ serItems (e :: es) = c :: t2 := by
  obtain ⟨c, t, hct, _⟩ := serJ_head e
  cases es with
  | nil => exact ⟨c, t, t, hct, by simp [serItems, hct]⟩
  | cons x xs =>
    refine ⟨c, t, t ++ ',' :: serItems (x :: xs), hct, ?_⟩
    simp [serItems, hct]

/-- The parser's array branch, isolated: a nonempty element list never
begins with `]`, so the branch reduces to wrapping `parseItems`. -/
theorem parseV_arr_go (f : Nat) (e : Json) (es : List Json) (tail : List Char) :
    parseV (f + 1) ('[' :: (serItems (e :: es) ++ tail))
      = (match parseItems f (serItems (e :: es) ++ tail) with
         | some (xs, r2) => some (Json.arr xs, r2)
         | none => none) := by
  obtain ⟨c, t, t2, hct, hct2⟩ := serItems_cons_head e es
  obtain ⟨hbr, _, _, _, _⟩ := serJ_head_ne hct
  rw [hct2, List.cons_append]
  simp only [parseV]
  rw [if_neg (by decide), if_neg (by decide), if_neg (by decide), if_neg (by decide),
    if_pos (by decide)]
  split
  · rename_i r2 heq
    exact absurd (List.cons.inj heq).1 hbr
  · rfl

/-- The parser's object branch, isolated: a nonempty member list begins with
the key's `"`, never `}`, so the branch reduces to wrapping `parsePairs`. -/
theorem parseV_obj_go (f : Nat) (k : String) (v : Json) (kvs : List (String × Json))
    (tail : List Char) :
    parseV (f + 1) ('{' :: (serPairs ((k, v) :: kvs) ++ tail))
      = (match parsePairs f (serPairs ((k, v) :: kvs) ++ tail) with
         | some (xs, r2) => some (Json.obj xs, r2)
         | none => none) := by
  have hhead : ∃ t2, serPairs ((k, v) :: kvs) = '"' :: t2 := by
    cases kvs with
    | nil =>
      exact ⟨k.data.flatMap escC ++ '"' :: ':' :: serJ v, by simp [serPairs, serStr]⟩
    | cons x xs =>
      exact ⟨k.data.flatMap escC ++ '"' :: ':' :: (serJ v ++ ',' :: serPairs (x :: xs)),
        by simp [serPairs, serStr]⟩
  obtain ⟨t2, ht2⟩ := hhead
  rw [ht2, List.cons_append]
  simp only [parseV]
  rw [if_neg (by decide), if_neg (by decide), if_neg (by decide), if_neg (by decide),
    if_neg (by decide), if_pos (by decide)]
  split
  · rename_i r2 heq
    exact absurd (List.cons.inj heq).1 (by decide)
  · rfl

theorem serInt_head (i : Int) :
    ∃ c t, serInt i = c :: t ∧ (c = '-' ∨ isDig c = true) := by
  by_cases hneg : i < 0
  · exact ⟨'-', natChars i.natAbs, by simp [serInt, hneg], Or.inl rfl⟩
  · obtain ⟨c, t, hct⟩ : ∃ c t, natChars i.natAbs = c :: t := by
      cases h : natChars i.natAbs with
      | nil => exact absurd h (natChars_ne_nil _)
      | cons c t => exact ⟨c, t, rfl⟩
    refine ⟨c, t, by simp [serInt, hneg, hct], Or.inr ?_⟩
    exact natChars_digits i.natAbs c (by rw [hct]; simp)

theorem digHead_cons (c : Char) (t : List Char) : digHead (c :: t) = isDig c := rfl

mutual
/-- Round-trip: parsing a serialized value followed by a non-digit-headed
remainder yields the value and the remainder. -/
theorem rtV : ∀ (v : Json) (fuel : Nat) (rest : List Char),
    (serJ v).length < fuel → digHead rest = false →
    parseV fuel (serJ v ++ rest) = some (v, rest)
  | .null, fuel, rest, hf, _ => by
    cases fuel with
    | zero => simp [serJ] at hf
    | succ f => simp [serJ, parseV]
  | .bool b, fuel, rest, hf, _ => by
    cases fuel with
    | zero => cases b <;> simp [serJ] at hf
    | succ f => cases b <;> simp [serJ, parseV]
  | .num n, fuel, rest, hf, hr => by
    cases fuel with
    | zero => exact absurd hf (Nat.not_lt_zero _)
    | succ f =>
      obtain ⟨c, t, hct, hc⟩ := serInt_head n
      have harg : serJ (.num n) ++ rest = c :: (t ++ rest) := by
        simp [serJ, hct]
      rw [harg, parseV_num_go f c _ hc]
      have harg2 : c :: (t ++ rest) = serInt n ++ rest := by
        simp [hct]
      rw [harg2, numToken_serInt n rest hr]
  | .str s, fuel, rest, hf, _ => by
    cases fuel with
    | zero => exact absurd hf (Nat.not_lt_zero _)
    | succ f =>
      have harg : serJ (.str s) ++ rest
          = '"' :: (s.toList.flatMap escC ++ '"' :: rest) := by
        simp [serJ, serStr]
      rw [harg]
      simp only [parseV]
      rw [if_neg (by decide), if_neg (by decide), if_neg (by decide),
        if_pos (by decide), strBody_serStr]
  | .arr [], fuel, rest, hf, _ => by
    cases fuel with
    | zero => exact absurd hf (Nat.not_lt_zero _)
    | succ f =>
      have harg : serJ (.arr []) ++ rest = '[' :: ']' :: rest := by
        simp [serJ, serItems]
      rw [harg]
      simp [parseV]
  | .arr (e :: es), fuel, rest, hf, _ => by
    cases fuel with
    | zero => exact absurd hf (Nat.not_lt_zero _)
    | succ f =>
      have harg : serJ (.arr (e :: es)) ++ rest
          = '[' :: (serItems (e :: es) ++ ']' :: rest) := by
        simp [serJ]
      have hlen : (serItems (e :: es)).length + 1 < f := by
        have : (serJ (.arr (e :: es))).length = (serItems (e :: es)).length + 2 := by
          simp [serJ]
        omega
      rw [harg, parseV_arr_go, rtIt e es f rest hlen]
  | .obj [], fuel, rest, hf, _ => by
    cases fuel with
    | zero => exact absurd hf (Nat.not_lt_zero _)
    | succ f =>
      have harg : serJ (.obj []) ++ rest = '{' :: '}' :: rest := by
        simp [serJ, serPairs]
      rw [harg]
      simp [parseV]
  | .obj ((k, v) :: kvs), fuel, rest, hf, _ => by
    cases fuel with
    | zero => exact absurd hf (Nat.not_lt_zero _)
    | succ f =>
      have harg : serJ (.obj ((k, v) :: kvs)) ++ rest
          = '{' :: (serPairs ((k, v) :: kvs) ++ '}' :: rest) := by
        simp [serJ]
      have hlen : (serPairs ((k, v) :: kvs)).length + 1 < f := by
        have : (serJ (.obj ((k, v) :: kvs))).length
            = (serPairs ((k, v) :: kvs)).length + 2 := by
          simp [serJ]
        omega
      rw [harg, parseV_obj_go, rtPr k v kvs f rest hlen]
termination_by v _ _ _ _ => sizeOf v
/-- Round-trip for a nonempty element list followed by its closing `]`. -/
theorem rtIt : ∀ (e : Json) (es : List Json) (fuel : Nat) (rest : List Char),
    (serItems (e :: es)).length + 1 < fuel →
    parseItems fuel (serItems (e :: es) ++ ']' :: rest) = some (e :: es, rest)
  | e, [], fuel, rest, hf => by
    cases fuel with
    | zero => exact absurd hf (Nat.not_lt_zero _)
    | succ f =>
      have harg : serItems [e] ++ ']' :: rest = serJ e ++ ']' :: rest := by
        simp [serItems]
      have hlen : (serJ e).length < f := by
        simp [serItems] at hf
        omega
      have hdig : digHead (']' :: rest) = false := by
        rw [digHead_cons]; decide
      rw [harg]
      simp only [parseItems]
      simp [rtV e f (']' :: rest) hlen hdig]
  | e, x :: xs, fuel, rest, hf => by
    cases fuel with
    | zero => exact absurd hf (Nat.not_lt_zero _)
    | succ f =>
      have harg : serItems (e :: x :: xs) ++ ']' :: rest
          = serJ e ++ ',' :: (serItems (x :: xs) ++ ']' :: rest) := by
        simp [serItems]
      have hf' : (serJ e).length + 1 + (serItems (x :: xs)).length + 1 < f + 1 := by
        have : (serItems (e :: x :: xs)).length
            = (serJ e).length + 1 + (serItems (x :: xs)).length := by
          simp [serItems]
          omega
        omega
      have hlen : (serJ e).length < f := by omega
      have hlen2 : (serItems (x :: xs)).length + 1 < f := by omega
      have hdig : digHead (',' :: (serItems (x :: xs) ++ ']' :: rest)) = false := by
        rw [digHead_cons]; decide
      rw [harg]
      simp only [parseItems]
      simp [rtV e f (',' :: (serItems (x :: xs) ++ ']' :: rest)) hlen hdig,
        rtIt x xs f rest hlen2]
termination_by e es _ _ _ => sizeOf e + sizeOf es
/-- Round-trip for a nonempty member list followed by its closing `}`. -/
theorem rtPr : ∀ (k : String) (v : Json) (kvs : List (String × Json))
    (fuel : Nat) (rest : List Char),
    (serPairs ((k, v) :: kvs)).length + 1 < fuel →
    parsePairs fuel (serPairs ((k, v) :: kvs) ++ '}' :: rest)
      = some ((k, v) :: kvs, rest)
  | k, v, [], fuel, rest, hf => by
    cases fuel with
    | zero => exact absurd hf (Nat.not_lt_zero _)
    | succ f =>
      have harg : serPairs [(k, v)] ++ '}' :: rest
          = '"' :: (k.toList.flatMap escC ++ '"' :: (':' :: (serJ v ++ '}' :: rest))) := by
        simp [serPairs, serStr]
      have hlen : (serJ v).length < f := by
        simp [serPairs, serStr] at hf
        omega
      have hdig : digHead ('}' :: rest) = false := by
        rw [digHead_cons]; decide
      rw [harg]
      simp only [parsePairs]
      rw [strBody_serStr]
      simp [rtV v f ('}' :: rest) hlen hdig]
  | k, v, (k2, v2) :: kvs, fuel, rest, hf => by
    cases fuel with
    | zero => exact absurd hf (Nat.not_lt_zero _)
    | succ f =>
      have harg : serPairs ((k, v) :: (k2, v2) :: kvs) ++ '}' :: rest
          = '"' :: (k.toList.flatMap escC
              ++ '"' :: (':' :: (serJ v
                ++ ',' :: (serPairs ((k2, v2) :: kvs) ++ '}' :: rest)))) := by
        simp [serPairs, serStr]
      have hf' : (serJ v).length + (serPairs ((k2, v2) :: kvs)).length + 2 < f + 1 := by
        have h1 : (serPairs ((k, v) :: (k2, v2) :: kvs)).length
            = (serStr k).length + 1 + (serJ v).length + 1
              + (serPairs ((k2, v2) :: kvs)).length := by
          simp [serPairs]
          omega
        have hsl : 0 < (serStr k).length := by simp [serStr]
        omega
      have hlen : (serJ v).length < f := by omega
      have hlen2 : (serPairs ((k2, v2) :: kvs)).length + 1 < f := by omega
      have hdig : digHead (',' :: (serPairs ((k2, v2) :: kvs) ++ '}' :: rest)) = false := by
        rw [digHead_cons]; decide
      rw [harg]
      simp only [parsePairs]
      rw [strBody_serStr]
      simp [rtV v f (',' :: (serPairs ((k2, v2) :: kvs) ++ '}' :: rest)) hlen hdig,
        rtPr k2 v2 kvs f rest hlen2]
termination_by k v kvs _ _ _ => sizeOf v + sizeOf kvs
end

/-! ## Prefix safety: no strict prefix of a serialized closed value parses

The framer treats a parse failure as "wait for more data".  The lemmas
below justify this: a strict prefix of a serialized object never parses as
a complete value (`pfxV`), so the framer never emits a half-received
message. -/

theorem parseV_nil (fuel : Nat) : parseV fuel [] = none := by
  cases fuel <;> simp [parseV]

theorem parseItems_nil (fuel : Nat) : parseItems fuel [] = none := by
  cases fuel with
  | zero => simp [parseItems]
  | succ f => simp [parseItems, parseV_nil]

theorem parsePairs_nil (fuel : Nat) : parsePairs fuel [] = none := by
  cases fuel <;> simp [parsePairs]

theorem escC_cases (c : Char) :
    (escC c = [c] ∧ c ≠ '"' ∧ c ≠ '\\') ∨ ∃ e, escC c = ['\\', e] := by
  by_cases h1 : c = '"'
  · subst h1; exact Or.inr ⟨'"', by simp [escC]⟩
  by_cases h2 : c = '\\'
  · subst h2; exact Or.inr ⟨'\\', by simp [escC]⟩
  by_cases h3 : c = '\n'
  · subst h3; exact Or.inr ⟨'n', by simp [escC]⟩
  by_cases h4 : c = '\r'
  · subst h4; exact Or.inr ⟨'r', by simp [escC]⟩
  by_cases h5 : c = '\t'
  · subst h5; exact Or.inr ⟨'t', by simp [escC]⟩
  exact Or.inl ⟨by simp [escC, h1, h2, h3, h4, h5], h1, h2⟩

/-- A strict prefix of an escaped string body (with its closing quote)
never completes: `strBody` runs out of input. -/
theorem pfxStrBody : ∀ (cs : List Char) (acc p q : List Char),
    cs.flatMap escC ++ ['"'] = p ++ q → q ≠ [] → strBody acc p = none := by
  intro cs
  induction cs with
  | nil =>
    intro acc p q h hq
    simp only [List.flatMap_nil, List.nil_append] at h
    cases p with
    | nil => simp [strBody]
    | cons c p' =>
      rw [List.cons_append] at h
      obtain ⟨hc, hrest⟩ := List.cons.inj h
      exact absurd (List.append_eq_nil.mp hrest.symm).2 hq
  | cons c cs ih =>
    intro acc p q h hq
    rw [List.flatMap_cons, List.append_assoc] at h
    rcases List.append_eq_append_iff.mp h with ⟨t, hp, hr⟩ | ⟨t, hp, hr⟩
    · -- p = escC c ++ t : consume the escape and recurse
      rw [hp, strBody_escC]
      exact ih (c :: acc) t q hr hq
    · -- escC c = p ++ t : p ends inside (or at the end of) this escape
      cases t with
      | nil =>
        have hpe : p = escC c := by simpa using hp.symm
        rw [hpe, ← List.append_nil (escC c), strBody_escC]
        simp [strBody]
      | cons a t' =>
        rcases escC_cases c with ⟨h1, hne, hns⟩ | ⟨e, h1⟩
        · rw [h1] at hp
          have hp0 : p.length = 0 := by
            have := congrArg List.length hp
            simp at this
            omega
          rw [List.length_eq_zero.mp hp0]
          simp [strBody]
        · rw [h1] at hp
          have hp1 : p.length ≤ 1 := by
            have := congrArg List.length hp
            simp at this
            omega
          cases p with
          | nil => simp [strBody]
          | cons x xs =>
            cases xs with
            | nil =>
              have hx : x = '\\' := by
                have := congrArg (fun l => l.head?) hp
                simpa using this.symm
              subst hx
              simp [strBody]
            | cons y ys => simp at hp1

/-! One-step dispatch equations for `parseV` at each head character. -/

theorem parseV_n (f : Nat) (r : List Char) :
    parseV (f + 1) ('n' :: r)
      = (match r with
         | 'u' :: 'l' :: 'l' :: r2 => some (Json.null, r2)
         | _ => none) := by
  simp [parseV]

theorem parseV_t (f : Nat) (r : List Char) :
    parseV (f + 1) ('t' :: r)
      = (match r with
         | 'r' :: 'u' :: 'e' :: r2 => some (Json.bool true, r2)
         | _ => none) := by
  simp [parseV]

theorem parseV_f (f : Nat) (r : List Char) :
    parseV (f + 1) ('f' :: r)
      = (match r with
         | 'a' :: 'l' :: 's' :: 'e' :: r2 => some (Json.bool false, r2)
         | _ => none) := by
  simp [parseV]

theorem parseV_q (f : Nat) (r : List Char) :
    parseV (f + 1) ('"' :: r)
      = (match strBody [] r with
         | some (s, r2) => some (Json.str s, r2)
         | none => none) := by
  simp [parseV]

theorem parseV_lb (f : Nat) (r : List Char) :
    parseV (f + 1) ('[' :: r)
      = (match r with
         | ']' :: r2 => some (Json.arr [], r2)
         | _ =>
           match parseItems f r with
           | some (es, r2) => some (Json.arr es, r2)
           | none => none) := by
  simp [parseV]

theorem parseV_lc (f : Nat) (r : List Char) :
    parseV (f + 1) ('{' :: r)
      = (match r with
         | '}' :: r2 => some (Json.obj [], r2)
         | _ =>
           match parsePairs f r with
           | some (kvs, r2) => some (Json.obj kvs, r2)
           | none => none) := by
  simp [parseV]

theorem parseV_other (f : Nat) (c : Char) (r : List Char)
    (h1 : c ≠ 'n') (h2 : c ≠ 't') (h3 : c ≠ 'f') (h4 : c ≠ '"')
    (h5 : c ≠ '[') (h6 : c ≠ '{') (h7 : c ≠ '-') (h8 : isDig c = false) :
    parseV (f + 1) (c :: r) = none := by
  simp [parseV, h1, h2, h3, h4, h5, h6, h7, h8]

theorem parseItems_succ (f : Nat) (s : List Char) :
    parseItems (f + 1) s
      = (match parseV f s with
         | none => none
         | some (v, r) =>
           match r with
           | ',' :: r2 =>
             match parseItems f r2 with
             | some (es, r3) => some (v :: es, r3)
             | none => none
           | ']' :: r2 => some ([v], r2)
           | _ => none) := rfl

theorem parsePairs_succ (f : Nat) (s : List Char) :
    parsePairs (f + 1) s
      = (match s with
         | '"' :: r =>
           match strBody [] r with
           | none => none
           | some (k, r1) =>
             match r1 with
             | ':' :: r2 =>
               match parseV f r2 with
               | none => none
               | some (v, r3) =>
                 match r3 with
                 | ',' :: r4 =>
                   match parsePairs f r4 with
                   | some (kvs, r5) => some ((k, v) :: kvs, r5)
                   | none => none
                 | '}' :: r4 => some ([(k, v)], r4)
                 | _ => none
             | _ => none
         | _ => none) := rfl

mutual
/-- Fuel monotonicity: a successful parse stays successful with more fuel. -/
theorem monoV : ∀ (fuel : Nat) (s : List Char) (x : Json × List Char),
    parseV fuel s = some x → parseV (fuel + 1) s = some x
  | 0, s, x, h => by simp [parseV] at h
  | f + 1, [], x, h => by simp [parseV] at h
  | f + 1, c :: r, x, h => by
    by_cases h1 : c = 'n'
    · subst h1
      rw [parseV_n] at h
      rw [parseV_n]
      exact h
    by_cases h2 : c = 't'
    · subst h2
      rw [parseV_t] at h
      rw [parseV_t]
      exact h
    by_cases h3 : c = 'f'
    · subst h3
      rw [parseV_f] at h
      rw [parseV_f]
      exact h
    by_cases h4 : c = '"'
    · subst h4
      rw [parseV_q] at h
      rw [parseV_q]
      exact h
    by_cases h5 : c = '['
    · subst h5
      rw [parseV_lb] at h
      rw [parseV_lb]
      split at h
      · exact h
      · cases hpi : parseItems f r with
        | none => rw [hpi] at h; simp at h
        | some y =>
          rw [hpi] at h
          rw [monoIt f r y hpi]
          exact h
    by_cases h6 : c = '{'
    · subst h6
      rw [parseV_lc] at h
      rw [parseV_lc]
      split at h
      · exact h
      · cases hpp : parsePairs f r with
        | none => rw [hpp] at h; simp at h
        | some y =>
          rw [hpp] at h
          rw [monoPr f r y hpp]
          exact h
    by_cases h7 : c = '-'
    · subst h7
      rw [parseV_num_go f _ r (Or.inl rfl)] at h
      rw [parseV_num_go (f + 1) _ r (Or.inl rfl)]
      exact h
    by_cases h8 : isDig c = true
    · rw [parseV_num_go f c r (Or.inr h8)] at h
      rw [parseV_num_go (f + 1) c r (Or.inr h8)]
      exact h
    · rw [parseV_other f c r h1 h2 h3 h4 h5 h6 h7 (by simpa using h8)] at h
      simp at h
/-- Fuel monotonicity for element lists. -/
theorem monoIt : ∀ (fuel : Nat) (s : List Char) (x : List Json × List Char),
    parseItems fuel s = some x → parseItems (fuel + 1) s = some x
  | 0, s, x, h => by simp [parseItems] at h
  | f + 1, s, x, h => by
    rw [parseItems_succ f s] at h
    rw [parseItems_succ (f + 1) s]
    cases hpv : parseV f s with
    | none => rw [hpv] at h; simp at h
    | some y =>
      rw [hpv] at h
      rw [monoV f s y hpv]
      obtain ⟨v, r⟩ := y
      simp only at h ⊢
      split at h
      · rename_i r2
        cases hpi : parseItems f r2 with
        | none => rw [hpi] at h; simp at h
        | some z =>
          rw [hpi] at h
          rw [monoIt f r2 z hpi]
          exact h
      · exact h
      · simp at h
/-- Fuel monotonicity for member lists. -/
theorem monoPr : ∀ (fuel : Nat) (s : List Char) (x : List (String × Json) × List Char),
    parsePairs fuel s = some x → parsePairs (fuel + 1) s = some x
  | 0, s, x, h => by simp [parsePairs] at h
  | f + 1, s, x, h => by
    rw [parsePairs_succ f s] at h
    rw [parsePairs_succ (f + 1) s]
    split at h
    · rename_i r
      cases hsb : strBody [] r with
      | none => rw [hsb] at h; simp at h
      | some y =>
        rw [hsb] at h
        obtain ⟨k, r1⟩ := y
        simp only at h ⊢
        split at h
        · rename_i r2
          cases hpv : parseV f r2 with
          | none => rw [hpv] at h; simp at h
          | some z =>
            rw [hpv] at h
            rw [monoV f r2 z hpv]
            obtain ⟨v, r3⟩ := z
            simp only at h ⊢
            split at h
            · rename_i r4
              cases hpp : parsePairs f r4 with
              | none => rw [hpp] at h; simp at h
              | some w =>
                rw [hpp] at h
                rw [monoPr f r4 w hpp]
                exact h
            · exact h
            · simp at h
        · simp at h
    · simp at h
end

theorem monoV_le {f g : Nat} (hfg : f ≤ g) (s : List Char) (x : Json × List Char)
    (h : parseV f s = some x) : parseV g s = some x := by
  induction g, hfg using Nat.le_induction with
  | base => exact h
  | succ n hn ih => exact monoV n s x ih

/-- Whatever fuel it is given, if the parser succeeds on a serialized value
followed by a non-digit-headed tail, the result is that value and tail. -/
theorem parseV_ser_eq (v : Json) (t : List Char) (f : Nat) (x : Json × List Char)
    (h : parseV f (serJ v ++ t) = some x) (ht : digHead t = false) : x = (v, t) := by
  have h1 : parseV (max f ((serJ v).length + 1)) (serJ v ++ t) = some x :=
    monoV_le (le_max_left _ _) _ _ h
  have h2 : parseV (max f ((serJ v).length + 1)) (serJ v ++ t) = some (v, t) :=
    rtV v _ t (lt_of_lt_of_le (Nat.lt_succ_self _) (le_max_right _ _)) ht
  rw [h1] at h2
  exact (Option.some.inj h2).symm ▸ rfl

theorem takeWhile_of_all {q : Char → Bool} :
    ∀ {xs : List Char}, (∀ c ∈ xs, q c = true) →
      xs.takeWhile q = xs ∧ xs.dropWhile q = []
  | [], _ => ⟨rfl, rfl⟩
  | x :: xs, h => by
    have hx := h x (by simp)
    have ht := @takeWhile_of_all q xs (fun c hc => h c (by simp [hc]))
    simp [List.takeWhile, List.dropWhile, hx, ht.1, ht.2]

/-- What follows one array element in a serialization: either the closing
bracket or a comma and the remaining elements. -/
def itemsTail : List Json → List Char
  | [] => [']']
  | x :: xs => ',' :: (serItems (x :: xs) ++ [']'])

/-- What follows one object member in a serialization: either the closing
brace or a comma and the remaining members. -/
def pairsTail : List (String × Json) → List Char
  | [] => ['}']
  | kv :: kvs => ',' :: (serPairs (kv :: kvs) ++ ['}'])

theorem serItems_shape (e : Json) (es : List Json) :
    serItems (e :: es) ++ [']'] = serJ e ++ itemsTail es := by
  cases es <;> simp [serItems, itemsTail]

theorem serPairs_shape (k : String) (v : Json) (kvs : List (String × Json)) :
    serPairs ((k, v) :: kvs) ++ ['}'] = serStr k ++ ':' :: (serJ v ++ pairsTail kvs) := by
  cases kvs with
  | nil => simp [serPairs, pairsTail]
  | cons kv kvs => obtain ⟨k2, v2⟩ := kv; simp [serPairs, pairsTail]

theorem itemsTail_head {es : List Json} {d : Char} {rest : List Char}
    (h : itemsTail es = d :: rest) : isDig d = false := by
  cases es with
  | nil => cases h; decide
  | cons x xs =>
    simp only [itemsTail] at h
    cases h
    decide

theorem pairsTail_head {kvs : List (String × Json)} {d : Char} {rest : List Char}
    (h : pairsTail kvs = d :: rest) : isDig d = false := by
  cases kvs with
  | nil => cases h; decide
  | cons kv kvs =>
    simp only [pairsTail] at h
    cases h
    decide

theorem digHead_of_tail {t : List Char}
    (h : t = [] ∨ ∃ d rest, t = d :: rest ∧ isDig d = false) : digHead t = false := by
  rcases h with rfl | ⟨d, rest, rfl, hd⟩
  · rfl
  · rw [digHead_cons]; exact hd

mutual
/-- Prefix safety: on a strict prefix of a serialized value, the parser
either fails or has consumed the entire prefix (the latter only for
numbers, whose serialization is not self-delimiting). -/
theorem pfxV : ∀ (v : Json) (p q : List Char) (fuel : Nat),
    serJ v = p ++ q → q ≠ [] →
    parseV fuel p = none ∨ ((∃ i, v = Json.num i) ∧ ∃ w, parseV fuel p = some (w, []))
  | .null, p, q, fuel, h, hq => by
    left
    simp only [serJ] at h
    cases fuel with
    | zero => simp [parseV]
    | succ f =>
      rcases p with _ | ⟨c1, _ | ⟨c2, _ | ⟨c3, _ | ⟨c4, p⟩⟩⟩⟩
      · exact parseV_nil _
      · simp only [List.cons_append, List.nil_append, List.cons.injEq] at h
        obtain ⟨rfl, -⟩ := h
        simp [parseV_n]
      · simp only [List.cons_append, List.nil_append, List.cons.injEq] at h
        obtain ⟨rfl, rfl, -⟩ := h
        simp [parseV_n]
      · simp only [List.cons_append, List.nil_append, List.cons.injEq] at h
        obtain ⟨rfl, rfl, rfl, -⟩ := h
        simp [parseV_n]
      · simp only [List.cons_append, List.nil_append, List.cons.injEq] at h
        obtain ⟨-, -, -, -, h5⟩ := h
        exact absurd (List.append_eq_nil.mp h5.symm).2 hq
  | .bool true, p, q, fuel, h, hq => by
    left
    simp only [serJ] at h
    cases fuel with
    | zero => simp [parseV]
    | succ f =>
      rcases p with _ | ⟨c1, _ | ⟨c2, _ | ⟨c3, _ | ⟨c4, p⟩⟩⟩⟩
      · exact parseV_nil _
      · simp only [List.cons_append, List.nil_append, List.cons.injEq] at h
        obtain ⟨rfl, -⟩ := h
        simp [parseV_t]
      · simp only [List.cons_append, List.nil_append, List.cons.injEq] at h
        obtain ⟨rfl, rfl, -⟩ := h
        simp [parseV_t]
      · simp only [List.cons_append, List.nil_append, List.cons.injEq] at h
        obtain ⟨rfl, rfl, rfl, -⟩ := h
        simp [parseV_t]
      · simp only [List.cons_append, List.nil_append, List.cons.injEq] at h
        obtain ⟨-, -, -, -, h5⟩ := h
        exact absurd (List.append_eq_nil.mp h5.symm).2 hq
  | .bool false, p, q, fuel, h, hq => by
    left
    simp only [serJ] at h
    cases fuel with
    | zero => simp [parseV]
    | succ f =>
      rcases p with _ | ⟨c1, _ | ⟨c2, _ | ⟨c3, _ | ⟨c4, _ | ⟨c5, p⟩⟩⟩⟩⟩
      · exact parseV_nil _
      · simp only [List.cons_append, List.nil_append, List.cons.injEq] at h
        obtain ⟨rfl, -⟩ := h
        simp [parseV_f]
      · simp only [List.cons_append, List.nil_append, List.cons.injEq] at h
        obtain ⟨rfl, rfl, -⟩ := h
        simp [parseV_f]
      · simp only [List.cons_append, List.nil_append, List.cons.injEq] at h
        obtain ⟨rfl, rfl, rfl, -⟩ := h
        simp [parseV_f]
      · simp only [List.cons_append, List.nil_append, List.cons.injEq] at h
        obtain ⟨rfl, rfl, rfl, rfl, -⟩ := h
        simp [parseV_f]
      · simp only [List.cons_append, List.nil_append, List.cons.injEq] at h
        obtain ⟨-, -, -, -, -, h6⟩ := h
        exact absurd (List.append_eq_nil.mp h6.symm).2 hq
  | .num n, p, q, fuel, h, hq => by
    simp only [serJ] at h
    cases p with
    | nil => exact Or.inl (parseV_nil fuel)
    | cons c p1 =>
      cases fuel with
      | zero => exact Or.inl (by simp [parseV])
      | succ f =>
        rw [List.cons_append] at h
        by_cases hneg : n < 0
        · have h2 : '-' :: natChars n.natAbs = c :: (p1 ++ q) := by
            rw [← h]
            simp [serInt, hneg]
          obtain ⟨hc, hrest⟩ := List.cons.inj h2
          subst hc
          rw [parseV_num_go f '-' p1 (Or.inl rfl)]
          have hdigs : ∀ c2 ∈ p1, isDig c2 = true := fun c2 hc2 =>
            natChars_digits n.natAbs c2
              (by rw [hrest]; exact List.mem_append.mpr (Or.inl hc2))
          cases p1 with
          | nil => exact Or.inl (by simp [numToken])
          | cons d p2 =>
            right
            refine ⟨⟨n, rfl⟩, ?_⟩
            have htk := takeWhile_of_all hdigs
            refine ⟨.num (-(digVal (d :: p2) : Int)), ?_⟩
            have hnt : numToken ('-' :: d :: p2)
                = some ((-(digVal (d :: p2) : Int)), []) := by
              simp only [numToken, htk.1, htk.2]
            rw [hnt]
        · have h2 : natChars n.natAbs = c :: (p1 ++ q) := by
            rw [← h]
            simp [serInt, hneg]
          have hdigs : ∀ c2 ∈ c :: p1, isDig c2 = true := fun c2 hc2 =>
            natChars_digits n.natAbs c2
              (by rw [h2]
                  rcases List.mem_cons.mp hc2 with hc2 | hc2
                  · exact List.mem_cons.mpr (Or.inl hc2)
                  · exact List.mem_cons.mpr
                      (Or.inr (List.mem_append.mpr (Or.inl hc2))))
          have hc : isDig c = true := hdigs c (by simp)
          rw [parseV_num_go f c p1 (Or.inr hc)]
          right
          refine ⟨⟨n, rfl⟩, ?_⟩
          have htk := takeWhile_of_all hdigs
          refine ⟨.num ((digVal (c :: p1) : Int)), ?_⟩
          have hnt : numToken (c :: p1) = some (((digVal (c :: p1) : Int)), []) := by
            rw [numToken.eq_def]
            split
            · rename_i r heq
              exact absurd (List.cons.inj heq).1 (isDig_not_minus hc)
            · rw [htk.1, htk.2]
          rw [hnt]
  | .str s0, p, q, fuel, h, hq => by
    left
    simp only [serJ, serStr] at h
    cases p with
    | nil => exact parseV_nil fuel
    | cons c p1 =>
      rw [List.cons_append] at h
      obtain ⟨hc, hrest⟩ := List.cons.inj h
      subst hc
      cases fuel with
      | zero => simp [parseV]
      | succ f =>
        rw [parseV_q, pfxStrBody s0.toList [] p1 q hrest hq]
  | .arr [], p, q, fuel, h, hq => by
    left
    simp only [serJ, serItems, List.nil_append] at h
    cases fuel with
    | zero => simp [parseV]
    | succ f =>
      rcases p with _ | ⟨c1, _ | ⟨c2, p⟩⟩
      · exact parseV_nil _
      · simp only [List.cons_append, List.nil_append, List.cons.injEq] at h
        obtain ⟨rfl, -⟩ := h
        simp [parseV_lb, parseItems_nil]
      · simp only [List.cons_append, List.nil_append, List.cons.injEq] at h
        obtain ⟨-, -, h3⟩ := h
        exact absurd (List.append_eq_nil.mp h3.symm).2 hq
  | .arr (e :: es), p, q, fuel, h, hq => by
    left
    simp only [serJ] at h
    cases p with
    | nil => exact parseV_nil fuel
    | cons c p1 =>
      rw [List.cons_append] at h
      obtain ⟨hc, hrest⟩ := List.cons.inj h
      subst hc
      cases fuel with
      | zero => simp [parseV]
      | succ f =>
        rw [parseV_lb]
        cases p1 with
        | nil => simp [parseItems_nil]
        | cons d p2 =>
          obtain ⟨c0, t, t2, hct, hct2⟩ := serItems_cons_head e es
          obtain ⟨hbr, -, -, -, -⟩ := serJ_head_ne hct
          have hrest2 : serItems (e :: es) ++ [']'] = (d :: p2) ++ q := hrest
          have hd : d = c0 := by
            rw [serItems_shape, hct, List.cons_append, List.cons_append] at hrest2
            exact ((List.cons.inj hrest2).1).symm
          split
          · rename_i r2 heq
            obtain ⟨hd2, -⟩ := List.cons.inj heq
            rw [hd] at hd2
            exact absurd hd2 hbr
          · rw [pfxIt e es (d :: p2) q f hrest hq]
  | .obj [], p, q, fuel, h, hq => by
    left
    simp only [serJ, serPairs, List.nil_append] at h
    cases fuel with
    | zero => simp [parseV]
    | succ f =>
      rcases p with _ | ⟨c1, _ | ⟨c2, p⟩⟩
      · exact parseV_nil _
      · simp only [List.cons_append, List.nil_append, List.cons.injEq] at h
        obtain ⟨rfl, -⟩ := h
        simp [parseV_lc, parsePairs_nil]
      · simp only [List.cons_append, List.nil_append, List.cons.injEq] at h
        obtain ⟨-, -, h3⟩ := h
        exact absurd (List.append_eq_nil.mp h3.symm).2 hq
  | .obj ((k, v) :: kvs), p, q, fuel, h, hq => by
    left
    simp only [serJ] at h
    cases p with
    | nil => exact parseV_nil fuel
    | cons c p1 =>
      rw [List.cons_append] at h
      obtain ⟨hc, hrest⟩ := List.cons.inj h
      subst hc
      cases fuel with
      | zero => simp [parseV]
      | succ f =>
        rw [parseV_lc]
        cases p1 with
        | nil => simp [parsePairs_nil]
        | cons d p2 =>
          have hrest2 : serPairs ((k, v) :: kvs) ++ ['}'] = (d :: p2) ++ q := hrest
          have hd : d = '"' := by
            rw [serPairs_shape, serStr, List.cons_append, List.cons_append] at hrest2
            exact ((List.cons.inj hrest2).1).symm
          split
          · rename_i r2 heq
            obtain ⟨hd2, -⟩ := List.cons.inj heq
            rw [hd] at hd2
            exact absurd hd2 (by decide)
          · rw [pfxPr k v kvs (d :: p2) q f hrest hq]
termination_by _ _ _ fuel _ _ => fuel
decreasing_by all_goals omega
/-- Prefix safety for element lists: a strict prefix never completes. -/
theorem pfxIt : ∀ (e : Json) (es : List Json) (p q : List Char) (fuel : Nat),
    serItems (e :: es) ++ [']'] = p ++ q → q ≠ [] → parseItems fuel p = none
  | e, es, p, q, fuel, h, hq => by
    cases fuel with
    | zero => simp [parseItems]
    | succ f =>
      rw [parseItems_succ f p]
      rw [serItems_shape] at h
      rcases List.append_eq_append_iff.mp h with ⟨t, hp, hr⟩ | ⟨t, hp, hr⟩
      · -- p = serJ e ++ t : the element may parse fully, then look at t
        subst hp
        cases hpv : parseV f (serJ e ++ t) with
        | none => rfl
        | some y =>
          have hdt : digHead t = false := by
            apply digHead_of_tail
            cases t with
            | nil => exact Or.inl rfl
            | cons d t2 =>
              have hr2 : itemsTail es = d :: (t2 ++ q) := by simpa using hr
              exact Or.inr ⟨d, t2, rfl, itemsTail_head hr2⟩
          have hy := parseV_ser_eq e t f y hpv hdt
          subst hy
          simp only
          cases es with
          | nil =>
            simp only [itemsTail] at hr
            cases t with
            | nil => rfl
            | cons d t2 =>
              obtain ⟨hd, h2⟩ := List.cons.inj hr.symm
              exact absurd (List.append_eq_nil.mp h2).2 hq
          | cons x xs =>
            simp only [itemsTail] at hr
            cases t with
            | nil => rfl
            | cons d t2 =>
              obtain ⟨hd, h2⟩ := List.cons.inj hr
              subst hd
              simp only
              rw [pfxIt x xs t2 q f h2 hq]
      · -- serJ e = p ++ t : p ends inside (or at the end of) the element
        by_cases ht : t = []
        · subst ht
          rw [List.append_nil] at hp
          subst hp
          cases hpv : parseV f (serJ e) with
          | none => rfl
          | some y =>
            have hpv2 : parseV f (serJ e ++ []) = some y := by
              rw [List.append_nil]; exact hpv
            have hy := parseV_ser_eq e [] f y hpv2 rfl
            subst hy
            rfl
        · rcases pfxV e p t f hp ht with hn | ⟨-, w, hw⟩
          · rw [hn]
          · rw [hw]
termination_by _ _ _ _ fuel _ _ => fuel
decreasing_by all_goals omega
/-- Prefix safety for member lists: a strict prefix never completes. -/
theorem pfxPr : ∀ (k : String) (v : Json) (kvs : List (String × Json))
    (p q : List Char) (fuel : Nat),
    serPairs ((k, v) :: kvs) ++ ['}'] = p ++ q → q ≠ [] → parsePairs fuel p = none
  | k, v, kvs, p, q, fuel, h, hq => by
    cases fuel with
    | zero => simp [parsePairs]
    | succ f =>
      rw [parsePairs_succ f p]
      rw [serPairs_shape, serStr] at h
      cases p with
      | nil => rfl
      | cons c p1 =>
        rw [List.cons_append, List.cons_append] at h
        obtain ⟨hc, h1⟩ := List.cons.inj h
        subst hc
        simp only
        rcases List.append_eq_append_iff.mp h1 with ⟨t, hp1, hr⟩ | ⟨t, hp1, hr⟩
        · -- p1 = body ++ t : the key parses, then look at t
          subst hp1
          have hsplit : k.toList.flatMap escC ++ ['"'] ++ t
              = k.toList.flatMap escC ++ '"' :: t := by simp
          rw [hsplit, strBody_serStr k t]
          simp only
          cases t with
          | nil => rfl
          | cons d t2 =>
            obtain ⟨hd, h2⟩ := List.cons.inj hr.symm
            subst hd
            simp only
            rcases List.append_eq_append_iff.mp h2.symm with ⟨u, ht2, hu⟩ | ⟨u, ht2, hu⟩
            · -- t2 = serJ v ++ u : the member value parses fully
              subst ht2
              cases hpv : parseV f (serJ v ++ u) with
              | none => rfl
              | some y =>
                have hdu : digHead u = false := by
                  apply digHead_of_tail
                  cases u with
                  | nil => exact Or.inl rfl
                  | cons d2 u2 =>
                    have hu2 : pairsTail kvs = d2 :: (u2 ++ q) := by simpa using hu
                    exact Or.inr ⟨d2, u2, rfl, pairsTail_head hu2⟩
                have hy := parseV_ser_eq v u f y hpv hdu
                subst hy
                simp only
                rcases kvs with _ | ⟨⟨k2, v2⟩, kvs2⟩
                · simp only [pairsTail] at hu
                  cases u with
                  | nil => rfl
                  | cons d2 u2 =>
                    obtain ⟨hd2, h3⟩ := List.cons.inj hu.symm
                    exact absurd (List.append_eq_nil.mp h3).2 hq
                · simp only [pairsTail] at hu
                  cases u with
                  | nil => rfl
                  | cons d2 u2 =>
                    obtain ⟨hd2, h3⟩ := List.cons.inj hu
                    subst hd2
                    simp only
                    rw [pfxPr k2 v2 kvs2 u2 q f h3 hq]
            · -- serJ v = t2 ++ u : p ends inside (or at the end of) the value
              by_cases hu0 : u = []
              · subst hu0
                rw [List.append_nil] at ht2
                subst ht2
                cases hpv : parseV f (serJ v) with
                | none => rfl
                | some y =>
                  have hpv2 : parseV f (serJ v ++ []) = some y := by
                    rw [List.append_nil]; exact hpv
                  have hy := parseV_ser_eq v [] f y hpv2 rfl
                  subst hy
                  rfl
              · rcases pfxV v t2 u f ht2 hu0 with hn | ⟨-, w, hw⟩
                · rw [hn]
                · rw [hw]
        · -- body = p1 ++ t : p ends inside (or at the end of) the key string
          by_cases ht0 : t = []
          · subst ht0
            rw [List.append_nil] at hp1
            subst hp1
            have hsplit : k.toList.flatMap escC ++ ['"']
                = k.toList.flatMap escC ++ '"' :: ([] : List Char) := by simp
            rw [hsplit, strBody_serStr k []]
          · rw [pfxStrBody k.toList [] p1 t hp1 ht0]
termination_by _ _ _ _ _ fuel _ _ => fuel
decreasing_by all_goals omega
end

/-! ## `jsonParse`-level corollaries -/

/-- Only whitespace characters. -/
def wsOnly (l : List Char) : Bool := l.all isWsC

theorem isWsC_not_dig {c : Char} (h : isWsC c = true) : isDig c = false := by
  simp only [isWsC, Bool.or_eq_true, decide_eq_true_eq] at h
  rcases h with ((rfl | rfl) | rfl) | rfl <;> decide

theorem dropWs_nonWs_head {c : Char} {t : List Char} (h : isWsC c = false) :
    dropWs (c :: t) = c :: t := by
  simp [dropWs, List.dropWhile, h]

theorem dropWs_serJ (v : Json) (rest : List Char) :
    dropWs (serJ v ++ rest) = serJ v ++ rest := by
  obtain ⟨c, t, hct, _⟩ := serJ_head v
  obtain ⟨-, -, -, -, hws⟩ := serJ_head_ne hct
  rw [hct, List.cons_append]
  exact dropWs_nonWs_head hws

theorem dropWs_wsOnly {l : List Char} (h : wsOnly l = true) : dropWs l = [] := by
  induction l with
  | nil => rfl
  | cons c t ih =>
    simp only [wsOnly, List.all_cons, Bool.and_eq_true] at h
    simp only [dropWs, List.dropWhile, h.1]
    exact ih h.2

theorem dropWs_ws_append {w l : List Char} (hw : wsOnly w = true) :
    dropWs (w ++ l) = dropWs l := by
  induction w with
  | nil => rfl
  | cons c t ih =>
    simp only [wsOnly, List.all_cons, Bool.and_eq_true] at hw
    simp only [List.cons_append, dropWs, List.dropWhile, hw.1]
    exact ih hw.2

theorem digHead_wsOnly {l : List Char} (h : wsOnly l = true) : digHead l = false := by
  cases l with
  | nil => rfl
  | cons c t =>
    simp only [wsOnly, List.all_cons, Bool.and_eq_true] at h
    rw [digHead_cons]
    exact isWsC_not_dig h.1

/-- Parsing a whole serialized value (with optional surrounding JSON
whitespace) returns exactly that value. -/
theorem jsonParse_ser_ws (v : Json) (w1 w2 : List Char)
    (h1 : wsOnly w1 = true) (h2 : wsOnly w2 = true) :
    jsonParse (w1 ++ (serJ v ++ w2)) = some v := by
  unfold jsonParse
  rw [dropWs_ws_append h1, dropWs_serJ]
  rw [rtV v _ w2 (by simp; omega) (digHead_wsOnly h2)]
  simp [dropWs_wsOnly h2]

/-- Parsing a whole serialized value returns exactly that value. -/
theorem jsonParse_ser (v : Json) : jsonParse (serJ v) = some v := by
  have := jsonParse_ser_ws v [] [] rfl rfl
  simpa using this

/-- A strict prefix of a serialized object (with an optional whitespace
prefix) does not parse: the framer keeps waiting for more input. -/
theorem jsonParse_pre_obj (kvs : List (String × Json)) (w p q : List Char)
    (hw : wsOnly w = true) (h : serJ (.obj kvs) = p ++ q) (hq : q ≠ []) :
    jsonParse (w ++ p) = none := by
  unfold jsonParse
  rw [dropWs_ws_append hw]
  cases p with
  | nil =>
    rw [dropWs_wsOnly (by rfl), parseV_nil]
  | cons c p1 =>
    have hc : c = '{' := by
      simp only [serJ, List.cons_append] at h
      exact ((List.cons.inj h).1).symm
    have hnws : isWsC c = false := by rw [hc]; decide
    rw [dropWs_nonWs_head hnws]
    rcases pfxV (.obj kvs) (c :: p1) q _ h hq with hn | ⟨⟨i, hvi⟩, -⟩
    · rw [hn]
    · exact absurd hvi (by simp)

theorem escC_no_nl (c : Char) : '\n' ∉ escC c := by
  by_cases h1 : c = '"'
  · subst h1; decide
  by_cases h2 : c = '\\'
  · subst h2; decide
  by_cases h3 : c = '\n'
  · subst h3; decide
  by_cases h4 : c = '\r'
  · subst h4; decide
  by_cases h5 : c = '\t'
  · subst h5; decide
  simp only [escC, if_neg h1, if_neg h2, if_neg h3, if_neg h4, if_neg h5,
    List.mem_singleton]
  exact fun he => h3 he.symm

theorem serStr_no_nl (s : String) : '\n' ∉ serStr s := by
  intro h
  simp [serStr] at h
  obtain ⟨c, -, hc⟩ := h
  exact escC_no_nl c hc

theorem serInt_no_nl (i : Int) : '\n' ∉ serInt i := by
  intro h
  simp only [serInt, List.mem_append] at h
  rcases h with h | h
  · split at h
    · simp only [List.mem_singleton] at h
      exact absurd h (by decide)
    · simp at h
  · have := natChars_digits i.natAbs '\n' h
    exact absurd this (by decide)

mutual
/-- A serialized value never contains a raw newline (newlines inside
strings are escaped), so line framing never splits a message. -/
theorem serJ_no_nl : ∀ (v : Json), '\n' ∉ serJ v
  | .null => by decide
  | .bool true => by decide
  | .bool false => by decide
  | .num n => serInt_no_nl n
  | .str s => serStr_no_nl s
  | .arr es => by
    intro h
    simp [serJ] at h
    exact serItems_no_nl es h
  | .obj kvs => by
    intro h
    simp [serJ] at h
    exact serPairs_no_nl kvs h
theorem serItems_no_nl : ∀ (es : List Json), '\n' ∉ serItems es
  | [] => by simp [serItems]
  | [e] => by
    simp only [serItems]
    exact serJ_no_nl e
  | e :: e2 :: es => by
    intro h
    simp [serItems] at h
    rcases h with h | h
    · exact serJ_no_nl e h
    · exact serItems_no_nl (e2 :: es) h
theorem serPairs_no_nl : ∀ (kvs : List (String × Json)), '\n' ∉ serPairs kvs
  | [] => by simp [serPairs]
  | [(k, v)] => by
    intro h
    simp [serPairs] at h
    rcases h with h | h
    · exact serStr_no_nl k h
    · exact serJ_no_nl v h
  | (k, v) :: kv2 :: kvs => by
    intro h
    simp [serPairs] at h
    rcases h with h | h | h
    · exact serStr_no_nl k h
    · exact serJ_no_nl v h
    · exact serPairs_no_nl (kv2 :: kvs) h
end

/-! ## The bridge-side framer (`UnityConnection.handleClientData`)

The per-client framer of `UnityConnection` (server mode), lines 225–260 of
the source: append the chunk to the client's buffer, drain every
newline-terminated message (each trimmed and handed to
`processClientMessage`), then, if the remaining buffer parses in full as
JSON, emit it too and clear the buffer.  Bytes are modelled as characters.
-/

/-- JavaScript `String.prototype.trim` on the whitespace the wire can
carry. -/
def trimL (l : List Char) : List Char :=
  ((l.dropWhile isWsC).reverse.dropWhile isWsC).reverse

/-- `buffer.indexOf('\n')` plus the two `substring`s: the first line before
a newline, and the rest after it. -/
def takeLine : List Char → Option (List Char × List Char)
  | [] => none
  | c :: rest =>
    if c = '\n' then some ([], rest)
    else
      match takeLine rest with
      | some (l, r) => some (c :: l, r)
      | none => none

theorem takeLine_shrinks : ∀ {buf l r : List Char},
    takeLine buf = some (l, r) → r.length < buf.length := by
  intro buf
  induction buf with
  | nil => intro l r h; simp [takeLine] at h
  | cons c rest ih =>
    intro l r h
    simp only [takeLine] at h
    split at h
    · obtain ⟨-, rfl⟩ := Prod.mk.inj (Option.some.inj h)
      simp
    · split at h
      · rename_i l2 r2 heq
        obtain ⟨-, rfl⟩ := Prod.mk.inj (Option.some.inj h)
        have := ih heq
        simp
        omega
      · simp at h

/-- The framer's `while` loop: extract and trim every newline-terminated
message, returning the messages and the remaining buffer. -/
def drainLines (buf : List Char) : List (List Char) × List Char :=
  match h : takeLine buf with
  | some (l, r) =>
    let (ms, rem) := drainLines r
    (trimL l :: ms, rem)
  | none => ([], buf)
termination_by buf.length
decreasing_by exact takeLine_shrinks h

/-- One `handleClientData` call on one data chunk: returns the new buffer
and the messages handed to `processClientMessage`, in order. -/
def handleClientData (buffer data : List Char) : List Char × List (List Char) :=
  let b := buffer ++ data
  let (msgs, rem) := drainLines b
  if rem.length > 0 then
    match jsonParse rem with
    | some _ => ([], msgs ++ [trimL rem])
    | none => (rem, msgs)
  else (rem, msgs)

/-- The values that `processClientMessage` would parse out of a message
list (empty messages are discarded, unparsable ones are logged and
skipped). -/
def framedValues (msgs : List (List Char)) : List Json :=
  msgs.filterMap (fun m => if m = [] then none else jsonParse m)

/-- Feeding a chunk sequence through the framer, starting from a given
buffer, collecting all messages. -/
def tsRunFrom (B : List Char) (chunks : List (List Char)) :
    List Char × List (List Char) :=
  chunks.foldl
    (fun st d =>
      let r := handleClientData st.1 d
      (r.1, st.2 ++ r.2))
    (B, [])

/-- The serialized stream: every object followed by a newline when
`withNl` is true; with `withNl` false the final object has no trailing
newline. -/
def serStreamF (withNl : Bool) : List Json → List Char
  | [] => []
  | [o] => serJ o ++ (if withNl then ['\n'] else [])
  | o :: o2 :: rest => serJ o ++ '\n' :: serStreamF withNl (o2 :: rest)

/-- What follows one object in the stream. -/
def sTail (withNl : Bool) : List Json → List Char
  | [] => if withNl then ['\n'] else []
  | o2 :: rest => '\n' :: serStreamF withNl (o2 :: rest)

theorem serStreamF_cons (b : Bool) (o : Json) (rest : List Json) :
    serStreamF b (o :: rest) = serJ o ++ sTail b rest := by
  cases rest <;> simp [serStreamF, sTail]

theorem sTail_cases (b : Bool) (rest : List Json) :
    sTail b rest = '\n' :: serStreamF b rest ∨
      (b = false ∧ rest = [] ∧ sTail b rest = []) := by
  cases rest with
  | nil =>
    cases b with
    | false => exact Or.inr ⟨rfl, rfl, rfl⟩
    | true => exact Or.inl (by simp [sTail, serStreamF])
  | cons o2 rest => exact Or.inl (by simp [sTail])

theorem takeLine_none {x : List Char} (h : '\n' ∉ x) : takeLine x = none := by
  induction x with
  | nil => rfl
  | cons c rest ih =>
    simp only [List.mem_cons, not_or] at h
    have hc : ¬ c = '\n' := fun he => h.1 he.symm
    simp [takeLine, hc, ih h.2]

theorem takeLine_line {L : List Char} (h : '\n' ∉ L) (x : List Char) :
    takeLine (L ++ '\n' :: x) = some (L, x) := by
  induction L with
  | nil => simp [takeLine]
  | cons c rest ih =>
    simp only [List.mem_cons, not_or] at h
    have hc : ¬ c = '\n' := fun he => h.1 he.symm
    simp [takeLine, hc, ih h.2]

theorem drainLines_no_nl {x : List Char} (h : '\n' ∉ x) :
    drainLines x = ([], x) := by
  rw [drainLines]
  split
  · rename_i l r heq
    rw [takeLine_none h] at heq
    simp at heq
  · rfl

theorem drainLines_line {L : List Char} (h : '\n' ∉ L) (x : List Char) :
    drainLines (L ++ '\n' :: x)
      = (trimL L :: (drainLines x).1, (drainLines x).2) := by
  rw [drainLines]
  split
  · rename_i l r heq
    rw [takeLine_line h] at heq
    obtain ⟨rfl, rfl⟩ := Prod.mk.inj (Option.some.inj heq.symm)
    rfl
  · rename_i heq
    rw [takeLine_line h] at heq
    simp at heq

theorem trimL_nil : trimL [] = [] := rfl

theorem trimL_serJ_obj (kvs : List (String × Json)) :
    trimL (serJ (.obj kvs)) = serJ (.obj kvs) := by
  have harg : serJ (.obj kvs) = '{' :: (serPairs kvs ++ ['}']) := rfl
  rw [harg]
  unfold trimL
  rw [List.dropWhile_cons_of_neg (by decide)]
  have hrev : ('{' :: (serPairs kvs ++ ['}'])).reverse
      = '}' :: ((serPairs kvs).reverse ++ ['{']) := by
    simp
  rw [hrev, List.dropWhile_cons_of_neg (by decide), ← hrev, List.reverse_reverse]

theorem framedValues_nil_msg (ms : List (List Char)) :
    framedValues ([] :: ms) = framedValues ms := by
  simp [framedValues]

theorem framedValues_ser_msg (o : Json) (ms : List (List Char)) :
    framedValues (serJ o :: ms) = o :: framedValues ms := by
  obtain ⟨c, t, hct, -⟩ := serJ_head o
  simp only [framedValues, List.filterMap_cons]
  rw [if_neg (by rw [hct]; simp), jsonParse_ser]

theorem framedValues_append (a c : List (List Char)) :
    framedValues (a ++ c) = framedValues a ++ framedValues c := by
  simp [framedValues]

theorem serJ_ne_nil (o : Json) : serJ o ≠ [] := by
  obtain ⟨c, t, hct, -⟩ := serJ_head o
  rw [hct]
  simp

theorem isObj_ex {o : Json} (h : o.isObj = true) :
    ∃ kvs, o = Json.obj kvs := by
  cases o <;> simp_all [Json.isObj]

theorem handleClientData_concat (B d : List Char) :
    handleClientData B d = handleClientData [] (B ++ d) := by
  simp [handleClientData]

theorem handleClientData_nil : handleClientData [] [] = ([], []) := by
  simp only [handleClientData, List.nil_append]
  rw [drainLines_no_nl (List.not_mem_nil _)]
  simp

theorem handleClientData_line (L X : List Char) (hL : '\n' ∉ L) :
    handleClientData [] (L ++ '\n' :: X)
      = ((handleClientData [] X).1, trimL L :: (handleClientData [] X).2) := by
  simp only [handleClientData, List.nil_append]
  rw [drainLines_line hL]
  cases hdl : drainLines X with
  | mk ms rem =>
    simp only
    split
    · split
      · rfl
      · rfl
    · rfl

theorem handleClientData_obj (kvs : List (String × Json)) :
    handleClientData [] (serJ (.obj kvs)) = ([], [serJ (.obj kvs)]) := by
  simp only [handleClientData, List.nil_append]
  rw [drainLines_no_nl (serJ_no_nl _)]
  simp only
  rw [if_pos (by simpa using List.length_pos_of_ne_nil (serJ_ne_nil (.obj kvs)))]
  rw [jsonParse_ser]
  rw [trimL_serJ_obj]
  simp

theorem handleClientData_pre_obj (kvs : List (String × Json)) (X t : List Char)
    (hp : serJ (.obj kvs) = X ++ t) (ht : t ≠ []) (hx : X ≠ []) :
    handleClientData [] X = (X, []) := by
  have hnn : '\n' ∉ X := fun hm =>
    serJ_no_nl (.obj kvs) (by rw [hp]; exact List.mem_append.mpr (Or.inl hm))
  simp only [handleClientData, List.nil_append]
  rw [drainLines_no_nl hnn]
  simp only
  rw [if_pos (by simpa using List.length_pos_of_ne_nil hx)]
  have hnone : jsonParse X = none := by
    simpa using jsonParse_pre_obj kvs [] X t (by rfl) hp ht
  rw [hnone]

/-- Single-slice invariant for the newline framer: feeding a prefix `X` of
the remaining serialized stream (possibly preceded by a pending newline)
into `handleClientData` with empty buffer emits exactly the leading
completed objects and leaves a buffer that is again a valid stream state. -/
theorem tsGo (n : Nat) : ∀ (X Y : List Char) (b : Bool) (pending : List Json)
    (optNl : List Char), X.length ≤ n →
    (∀ o ∈ pending, o.isObj = true) →
    (optNl = [] ∨ optNl = ['\n']) →
    X ++ Y = optNl ++ serStreamF b pending →
    ∃ done pending2 optNl2,
      pending = done ++ pending2 ∧
      framedValues (handleClientData [] X).2 = done ∧
      (optNl2 = [] ∨ optNl2 = ['\n']) ∧
      (handleClientData [] X).1 ++ Y = optNl2 ++ serStreamF b pending2 ∧
      ((handleClientData [] X).1 = [] ∨
        ('\n' ∉ (handleClientData [] X).1 ∧
          jsonParse (handleClientData [] X).1 = none)) := by
  induction n with
  | zero =>
    intro X Y b pending optNl hn hobjs hnl heq
    have hX : X = [] := List.eq_nil_of_length_eq_zero (Nat.le_zero.mp hn)
    subst hX
    rw [handleClientData_nil]
    exact ⟨[], pending, optNl, rfl, rfl, hnl, by simpa using heq, Or.inl rfl⟩
  | succ n ih =>
    intro X Y b pending optNl hn hobjs hnl heq
    rcases hnl with rfl | rfl
    · cases pending with
      | nil =>
        simp only [serStreamF, List.nil_append] at heq
        obtain ⟨rfl, rfl⟩ := List.append_eq_nil.mp heq
        rw [handleClientData_nil]
        exact ⟨[], [], [], rfl, rfl, Or.inl rfl, rfl, Or.inl rfl⟩
      | cons p0 ps =>
        obtain ⟨kvs, rfl⟩ := isObj_ex (hobjs p0 (List.mem_cons_self _ _))
        rw [serStreamF_cons, List.nil_append] at heq
        rcases List.append_eq_append_iff.mp heq with ⟨t, hp, hY⟩ | ⟨t, rfl, ht⟩
        · -- X stops inside (or exactly at the end of) the first object
          cases t with
          | nil =>
            rw [List.append_nil] at hp
            subst hp
            rw [List.nil_append] at hY
            subst hY
            rw [handleClientData_obj]
            dsimp only
            rcases sTail_cases b ps with hcase | ⟨hb, rfl, hcase⟩
            · refine ⟨[Json.obj kvs], ps, ['\n'], rfl, ?_, Or.inr rfl, ?_, Or.inl rfl⟩
              · simpa using framedValues_ser_msg (Json.obj kvs) []
              · simp [hcase]
            · refine ⟨[Json.obj kvs], [], [], rfl, ?_, Or.inl rfl, ?_, Or.inl rfl⟩
              · simpa using framedValues_ser_msg (Json.obj kvs) []
              · simp [hcase, serStreamF]
          | cons c t' =>
            cases X with
            | nil =>
              rw [handleClientData_nil]
              refine ⟨[], Json.obj kvs :: ps, [], rfl, rfl, Or.inl rfl, ?_, Or.inl rfl⟩
              rw [serStreamF_cons, hp, hY]
              simp
            | cons x0 X2 =>
              rw [handleClientData_pre_obj kvs (x0 :: X2) (c :: t') hp (by simp) (by simp)]
              dsimp only
              refine ⟨[], Json.obj kvs :: ps, [], rfl, rfl, Or.inl rfl, ?_, Or.inr ⟨?_, ?_⟩⟩
              · rw [List.nil_append, serStreamF_cons]
                exact heq
              · intro hm
                exact serJ_no_nl (Json.obj kvs)
                  (by rw [hp]; exact List.mem_append.mpr (Or.inl hm))
              · simpa using jsonParse_pre_obj kvs [] (x0 :: X2) (c :: t') rfl hp (by simp)
        · -- X covers the whole first object and continues
          cases t with
          | nil =>
            rw [List.append_nil]
            rw [List.nil_append] at ht
            rw [handleClientData_obj]
            dsimp only
            rcases sTail_cases b ps with hcase | ⟨hb, rfl, hcase⟩
            · refine ⟨[Json.obj kvs], ps, ['\n'], rfl, ?_, Or.inr rfl, ?_, Or.inl rfl⟩
              · simpa using framedValues_ser_msg (Json.obj kvs) []
              · rw [← ht, hcase]
                simp
            · refine ⟨[Json.obj kvs], [], [], rfl, ?_, Or.inl rfl, ?_, Or.inl rfl⟩
              · simpa using framedValues_ser_msg (Json.obj kvs) []
              · rw [← ht, hcase]
                simp [serStreamF]
          | cons c t' =>
            rcases sTail_cases b ps with hcase | ⟨hb, hps, hcase⟩
            · rw [hcase] at ht
              simp only [List.cons_append, List.cons.injEq] at ht
              obtain ⟨rfl, ht2⟩ := ht
              rw [handleClientData_line _ _ (serJ_no_nl _), trimL_serJ_obj]
              dsimp only
              simp only [List.length_append, List.length_cons] at hn
              obtain ⟨done3, p2, o2, hsplit, hfv, ho2, hstream, hbuf⟩ :=
                ih t' Y b ps [] (by omega)
                  (fun o ho => hobjs o (List.mem_cons_of_mem _ ho))
                  (Or.inl rfl) (by rw [List.nil_append]; exact ht2.symm)
              refine ⟨Json.obj kvs :: done3, p2, o2, ?_, ?_, ho2, hstream, hbuf⟩
              · rw [hsplit, List.cons_append]
              · rw [framedValues_ser_msg, hfv]
            · rw [hcase] at ht
              exact absurd ht (by simp)
    · cases X with
      | nil =>
        rw [handleClientData_nil]
        refine ⟨[], pending, ['\n'], rfl, rfl, Or.inr rfl, ?_, Or.inl rfl⟩
        simpa using heq
      | cons c X2 =>
        simp only [List.cons_append, List.singleton_append, List.cons.injEq] at heq
        obtain ⟨rfl, heq2⟩ := heq
        have hline := handleClientData_line [] X2 (List.not_mem_nil _)
        rw [List.nil_append] at hline
        rw [hline, trimL_nil]
        dsimp only
        simp only [List.length_cons] at hn
        obtain ⟨done3, p2, o2, hsplit, hfv, ho2, hstream, hbuf⟩ :=
          ih X2 Y b pending [] (by omega) hobjs (Or.inl rfl) (by simpa using heq2)
        refine ⟨done3, p2, o2, hsplit, ?_, ho2, hstream, hbuf⟩
        rw [framedValues_nil_msg, hfv]

theorem tsRunFrom_acc (chunks : List (List Char)) :
    ∀ (B : List Char) (ms : List (List Char)),
      chunks.foldl
          (fun st d =>
            let r := handleClientData st.1 d
            (r.1, st.2 ++ r.2)) (B, ms)
        = ((tsRunFrom B chunks).1, ms ++ (tsRunFrom B chunks).2) := by
  induction chunks with
  | nil => intro B ms; simp [tsRunFrom]
  | cons d rest ih =>
    intro B ms
    simp only [tsRunFrom, List.foldl_cons]
    rw [ih, ih]
    simp

theorem tsRunFrom_nil (B : List Char) : tsRunFrom B [] = (B, []) := rfl

theorem tsRunFrom_cons (B d : List Char) (rest : List (List Char)) :
    tsRunFrom B (d :: rest)
      = ((tsRunFrom (handleClientData B d).1 rest).1,
          (handleClientData B d).2 ++ (tsRunFrom (handleClientData B d).1 rest).2) := by
  simp only [tsRunFrom, List.foldl_cons]
  rw [tsRunFrom_acc]
  simp
  exact ⟨rfl, rfl⟩

theorem serStreamF_eq_nil {b : Bool} {p : List Json} (h : serStreamF b p = []) :
    p = [] := by
  cases p with
  | nil => rfl
  | cons p0 ps =>
    rw [serStreamF_cons] at h
    exact absurd (List.append_eq_nil.mp h).1 (serJ_ne_nil p0)

/-- Fold version of the framer invariant over a whole chunk list. -/
theorem tsFold (chunks : List (List Char)) :
    ∀ (B : List Char) (b : Bool) (pending : List Json) (optNl : List Char),
    (∀ o ∈ pending, o.isObj = true) →
    (optNl = [] ∨ optNl = ['\n']) →
    B ++ chunks.flatten = optNl ++ serStreamF b pending →
    (B = [] ∨ ('\n' ∉ B ∧ jsonParse B = none)) →
    ∃ done pending2 optNl2,
      pending = done ++ pending2 ∧
      framedValues (tsRunFrom B chunks).2 = done ∧
      (optNl2 = [] ∨ optNl2 = ['\n']) ∧
      (tsRunFrom B chunks).1 = optNl2 ++ serStreamF b pending2 ∧
      ((tsRunFrom B chunks).1 = [] ∨
        ('\n' ∉ (tsRunFrom B chunks).1 ∧
          jsonParse (tsRunFrom B chunks).1 = none)) := by
  induction chunks with
  | nil =>
    intro B b pending optNl hobjs hnl heq hbuf
    rw [tsRunFrom_nil]
    exact ⟨[], pending, optNl, rfl, rfl, hnl, by simpa using heq, hbuf⟩
  | cons d rest ih =>
    intro B b pending optNl hobjs hnl heq hbuf
    have heq2 : (B ++ d) ++ rest.flatten = optNl ++ serStreamF b pending := by
      rw [List.append_assoc]
      simpa [List.flatten_cons] using heq
    obtain ⟨done1, p2, o2, hsplit1, hfv1, ho2, hstream1, hbuf1⟩ :=
      tsGo (B ++ d).length (B ++ d) rest.flatten b pending optNl (le_refl _)
        hobjs hnl heq2
    obtain ⟨done2, p3, o3, hsplit2, hfv2, ho3, hstream2, hbuf2⟩ :=
      ih (handleClientData [] (B ++ d)).1 b p2 o2
        (fun o ho => hobjs o (by rw [hsplit1]; exact List.mem_append.mpr (Or.inr ho)))
        ho2 hstream1 hbuf1
    rw [tsRunFrom_cons, handleClientData_concat]
    dsimp only
    refine ⟨done1 ++ done2, p3, o3, ?_, ?_, ho3, hstream2, hbuf2⟩
    · rw [hsplit1, hsplit2, List.append_assoc]
    · rw [framedValues_append, hfv1, hfv2]

/-- Helper: full framing round-trip for the TS framer. -/
theorem tsRoundTrip (objs : List Json) (chunks : List (List Char)) (b : Bool)
    (hobjs : ∀ o ∈ objs, o.isObj = true)
    (hflat : chunks.flatten = serStreamF b objs) :
    framedValues (tsRunFrom [] chunks).2 = objs ∧ (tsRunFrom [] chunks).1 = [] := by
  obtain ⟨done, p2, o2, hsplit, hfv, ho2, hstream, hbuf⟩ :=
    tsFold chunks [] b objs [] hobjs (Or.inl rfl) (by simpa using hflat) (Or.inl rfl)
  have hfin : p2 = [] ∧ (tsRunFrom [] chunks).1 = [] := by
    rcases hbuf with hF | ⟨hnn, hnp⟩
    · rw [hF] at hstream
      obtain ⟨-, hs⟩ := List.append_eq_nil.mp hstream.symm
      exact ⟨serStreamF_eq_nil hs, hF⟩
    · rcases ho2 with rfl | rfl
      · cases p2 with
        | nil => exact ⟨rfl, by simpa [serStreamF] using hstream⟩
        | cons p0 ps =>
          rw [List.nil_append, serStreamF_cons] at hstream
          rcases sTail_cases b ps with hcase | ⟨hb, rfl, hcase⟩
          · exfalso
            apply hnn
            rw [hstream, hcase]
            exact List.mem_append.mpr (Or.inr (List.mem_cons_self _ _))
          · exfalso
            rw [hcase, List.append_nil] at hstream
            rw [hstream, jsonParse_ser] at hnp
            exact absurd hnp (Option.some_ne_none _)
      · exfalso
        apply hnn
        rw [hstream]
        simp
  refine ⟨?_, hfin.2⟩
  rw [hfin.1, List.append_nil] at hsplit
  exact hfv.trans hsplit.symm

/-- C3: feeding any chunk partition of the newline-separated serialization of a
list of JSON objects (with or without trailing newline) through the framer
emits exactly the original objects in order and leaves an empty buffer. -/
theorem C3_framing_round_trip (objs : List Json) (chunks : List (List Char)) (b : Bool)
    (hobjs : ∀ o ∈ objs, o.isObj = true)
    (hflat : chunks.flatten = serStreamF b objs) :
    framedValues (tsRunFrom [] chunks).2 = objs ∧ (tsRunFrom [] chunks).1 = [] :=
  tsRoundTrip objs chunks b hobjs hflat

/-- Witness for C3 at a concrete split: the stream for `[{}]` with trailing
newline cut between the braces. -/
theorem C3_framing_round_trip_witness :
    framedValues (tsRunFrom [] [['{'], ['}', '\n']]).2 = [Json.obj []] ∧
      (tsRunFrom [] [['{'], ['}', '\n']]).1 = [] :=
  C3_framing_round_trip [Json.obj []] [['{'], ['}', '\n']] true (by decide) (by decide)

/-! ### C# editor-side dispatcher (`McpServer.ProcessData`)

`ProcessData` concatenates the read data onto `incompleteData` and then tries
to parse the WHOLE accumulated buffer as one JSON document.  On success it
resets the buffer and dispatches exactly that one command; on a parse error
(`JsonReaderException`, which Json.NET also raises for trailing content after
a complete document) it stores the whole buffer for the next receive. -/

def csProcessData (incompleteData data : List Char) : List Char × List Json :=
  let fullData := incompleteData ++ data
  match jsonParse fullData with
  | some command => ([], [command])
  | none => (fullData, [])

/-- Feeding a chunk sequence through the C# dispatcher, collecting all
dispatched commands. -/
def csRun (inc : List Char) (chunks : List (List Char)) :
    List Char × List Json :=
  chunks.foldl
    (fun st d =>
      let r := csProcessData st.1 d
      (r.1, st.2 ++ r.2))
    (inc, [])

theorem csRun_acc (chunks : List (List Char)) :
    ∀ (B : List Char) (ms : List Json),
      chunks.foldl
          (fun st d =>
            let r := csProcessData st.1 d
            (r.1, st.2 ++ r.2)) (B, ms)
        = ((csRun B chunks).1, ms ++ (csRun B chunks).2) := by
  induction chunks with
  | nil => intro B ms; simp [csRun]
  | cons d rest ih =>
    intro B ms
    simp only [csRun, List.foldl_cons]
    rw [ih, ih]
    simp

theorem csRun_cons (B d : List Char) (rest : List (List Char)) :
    csRun B (d :: rest)
      = ((csRun (csProcessData B d).1 rest).1,
          (csProcessData B d).2 ++ (csRun (csProcessData B d).1 rest).2) := by
  simp only [csRun, List.foldl_cons]
  rw [csRun_acc]
  simp
  exact ⟨rfl, rfl⟩

theorem csProcessData_line (o : Json) :
    csProcessData [] (serJ o ++ ['\n']) = ([], [o]) := by
  have h : jsonParse ([] ++ (serJ o ++ ['\n'])) = some o :=
    jsonParse_ser_ws o [] ['\n'] rfl rfl
  rw [List.nil_append] at h
  simp [csProcessData, h]

/-- On per-envelope aligned chunks the C# dispatcher emits every object. -/
theorem csRun_aligned (objs : List Json) :
    csRun [] (objs.map (fun o => serJ o ++ ['\n'])) = ([], objs) := by
  induction objs with
  | nil => rfl
  | cons o rest ih =>
    rw [List.map_cons, csRun_cons, csProcessData_line, ih]
    rfl

theorem flatten_map_nl (objs : List Json) :
    (objs.map (fun o => serJ o ++ ['\n'])).flatten = serStreamF true objs := by
  induction objs with
  | nil => rfl
  | cons o rest ih =>
    rw [List.map_cons, List.flatten_cons, ih, serStreamF_cons]
    cases rest with
    | nil => simp [sTail, serStreamF]
    | cons o2 r2 => simp [sTail]

/-- C7 counterexample: two newline-separated envelopes arriving in a single
read.  The bridge-side framer dispatches both objects, while the editor-side
`ProcessData` parses the whole read as one JSON document, fails, dispatches
nothing and buffers the entire read. -/
theorem C7_two_envelopes_diverge :
    framedValues (handleClientData []
          (serJ (Json.obj []) ++ '\n' :: serJ (Json.obj []))).2
        = [Json.obj [], Json.obj []] ∧
      (csProcessData [] (serJ (Json.obj []) ++ '\n' :: serJ (Json.obj []))).2
        = [] ∧
      (csProcessData [] (serJ (Json.obj []) ++ '\n' :: serJ (Json.obj []))).1
        = serJ (Json.obj []) ++ '\n' :: serJ (Json.obj []) := by
  refine ⟨?_, by decide⟩
  rw [handleClientData_line _ _ (serJ_no_nl _), trimL_serJ_obj, handleClientData_obj]
  dsimp only
  rw [framedValues_ser_msg, framedValues_ser_msg]
  rfl

/-- C7 amended: the two sides agree when every read is aligned to exactly one
newline-terminated envelope: both dispatch exactly the original objects and
end with an empty buffer. -/
theorem C7_aligned_equivalence (objs : List Json)
    (hobjs : ∀ o ∈ objs, o.isObj = true) :
    (csRun [] (objs.map (fun o => serJ o ++ ['\n']))).2 = objs ∧
      (csRun [] (objs.map (fun o => serJ o ++ ['\n']))).1 = [] ∧
      framedValues (tsRunFrom [] (objs.map (fun o => serJ o ++ ['\n']))).2 = objs ∧
      (tsRunFrom [] (objs.map (fun o => serJ o ++ ['\n']))).1 = [] := by
  obtain ⟨hts1, hts2⟩ := tsRoundTrip objs _ true hobjs (flatten_map_nl objs)
  refine ⟨?_, ?_, hts1, hts2⟩ <;> rw [csRun_aligned]

/-- Witness for the amended C7 theorem at a one-object stream. -/
theorem C7_aligned_equivalence_witness :
    (csRun [] ([Json.obj []].map (fun o => serJ o ++ ['\n']))).2 = [Json.obj []] ∧
      (csRun [] ([Json.obj []].map (fun o => serJ o ++ ['\n']))).1 = [] ∧
      framedValues (tsRunFrom []
          ([Json.obj []].map (fun o => serJ o ++ ['\n']))).2 = [Json.obj []] ∧
      (tsRunFrom [] ([Json.obj []].map (fun o => serJ o ++ ['\n']))).1 = [] :=
  C7_aligned_equivalence [Json.obj []] (by decide)

/-! ### Hub state machine (`UnityConnection`, server mode)

Insertion-ordered JS `Map`s are modeled as association lists: `set` updates
in place when the key exists and appends otherwise, `delete` filters, and key
iteration order is list order.  Promise handles are opaque `Nat`s; promise
resolution/rejection and socket writes are recorded as events. -/

def mapGet {α : Type} (m : List (String × α)) (k : String) : Option α :=
  (m.find? (fun e => e.1 == k)).map (·.2)

def mapHas {α : Type} (m : List (String × α)) (k : String) : Bool :=
  m.any (fun e => e.1 == k)

def mapSet {α : Type} (m : List (String × α)) (k : String) (v : α) :
    List (String × α) :=
  if mapHas m k then m.map (fun e => if e.1 == k then (k, v) else e)
  else m ++ [(k, v)]

def mapDelete {α : Type} (m : List (String × α)) (k : String) :
    List (String × α) :=
  m.filter (fun e => !(e.1 == k))

structure HubState where
  clients : List (String × Nat)
  activeClientId : Option String
  pendingRequests : List (String × Nat)
  requestId : Nat
  clientDataBuffers : List (String × List Char)
  clientInfoMap : List (String × Json)
deriving DecidableEq

inductive HubEvent
  | clientConnected (clientId : String)
  | clientDisconnected (clientId : String)
  | clientRegistered (clientId : String)
  | activeClientChanged (clientId : String)
  | messageEv (clientId : String) (msg : Json)
  | resolveReq (id : String) (value : Json)
  | rejectReq (id : String) (msg : String)
  | sockWrite (sock : Nat) (data : List Char)
deriving DecidableEq

def initialHub : HubState := ⟨[], none, [], 0, [], []⟩

/-- JS truthiness of `activeClientId : string | null` (`null` and `""` are
falsy). -/
def jsFalsyStr : Option String → Bool
  | none => true
  | some s => s == ""

/-- JS string-typed payload field (the source casts with `as string`). -/
def strOfOpt : Option Json → String
  | some (Json.str s) => s
  | _ => ""

/-- Connection handler of `net.createServer`: derives the id from the socket
address, initializes the buffer, stores the socket, and claims the active
slot if it is falsy. -/
def serverConnect (addr : String) (sock : Nat) (s : HubState) :
    HubState × List HubEvent :=
  let clientId := "unity-" ++ addr
  ({ s with
      clientDataBuffers := mapSet s.clientDataBuffers clientId [],
      clients := mapSet s.clients clientId sock,
      activeClientId :=
        if jsFalsyStr s.activeClientId then some clientId else s.activeClientId },
    [HubEvent.clientConnected clientId])

/-- The socket `close` handler.  `clientId` is the id captured by the closure
at connect time (it is NOT re-read from current state). -/
def onSocketClose (clientId : String) (s : HubState) :
    HubState × List HubEvent :=
  let clients1 := mapDelete s.clients clientId
  ({ s with
      clients := clients1,
      clientDataBuffers := mapDelete s.clientDataBuffers clientId,
      clientInfoMap := mapDelete s.clientInfoMap clientId,
      activeClientId :=
        if s.activeClientId = some clientId then
          match clients1 with
          | [] => none
          | e :: _ => some e.1
        else s.activeClientId },
    [HubEvent.clientDisconnected clientId])

def handleRegistration (clientId newClientId : String) (clientInfo : Json)
    (s : HubState) : HubState × List HubEvent :=
  match mapGet s.clients clientId with
  | none => (s, [])
  | some socket =>
    ({ s with
        clients := mapSet (mapDelete s.clients clientId) newClientId socket,
        clientDataBuffers :=
          mapSet (mapDelete s.clientDataBuffers clientId) newClientId
            ((mapGet s.clientDataBuffers clientId).getD []),
        clientInfoMap := mapSet s.clientInfoMap newClientId clientInfo,
        activeClientId :=
          if s.activeClientId = some clientId then some newClientId
          else s.activeClientId },
      [HubEvent.clientRegistered newClientId])

def processClientMessage (clientId : String) (message : List Char)
    (s : HubState) : HubState × List HubEvent :=
  if message = [] then (s, [])
  else
    match jsonParse message with
    | none => (s, [])
    | some response =>
      if jget response "type" = some (Json.str "registration") then
        handleRegistration clientId (strOfOpt (jget response "clientId"))
          ((jget response "clientInfo").getD Json.null) s
      else if jget response "status" = some (Json.str "success") ∧
          truthyOpt (jget response "result") = true ∧
          truthyOpt (jget response "id") = true then
        let id := strOfOpt (jget response "id")
        if mapHas s.pendingRequests id then
          ({ s with pendingRequests := mapDelete s.pendingRequests id },
            [HubEvent.resolveReq id ((jget response "result").getD Json.null)])
        else (s, [])
      else if truthyOpt (jget response "id") = true then
        let id := strOfOpt (jget response "id")
        if mapHas s.pendingRequests id then
          ({ s with pendingRequests := mapDelete s.pendingRequests id },
            [HubEvent.resolveReq id response])
        else (s, [])
      else (s, [HubEvent.messageEv clientId response])

def hasConnectedClients (s : HubState) : Bool :=
  s.clients.length > 0

/-- `sendRequest` up to its first asynchronous callback: the synchronous
guard, id allocation, pending-entry creation and the socket write.  (The
write-error, response and timeout continuations are separate events.) -/
def sendRequest (request : Json) (s : HubState) :
    Except String (HubState × List HubEvent) :=
  if !(hasConnectedClients s) || jsFalsyStr s.activeClientId then
    Except.error "No Unity clients connected"
  else
    let id := String.mk (serInt (Int.ofNat (s.requestId + 1)))
    let requestWithId := Json.obj (
      (match jget request "command" with
        | some c => [("command", c)]
        | none => []) ++
      [("type", match jget request "type" with
        | some t => if truthy t then t else Json.str ""
        | none => Json.str "")] ++
      (match jget request "params" with
        | some p => [("params", p)]
        | none => []) ++
      [("id", Json.str id)])
    let sock := (mapGet s.clients ((s.activeClientId).getD "")).getD 0
    Except.ok
      ({ s with
          requestId := s.requestId + 1,
          pendingRequests := mapSet s.pendingRequests id 0 },
        [HubEvent.sockWrite sock (serJ requestWithId ++ ['\n'])])

/-- JS `x || {}`: the value when truthy, else an empty object literal. -/
def jsOrEmptyObj (o : Option Json) : Json :=
  match o with
  | some i => if truthy i then i else Json.obj []
  | none => Json.obj []

def getConnectedClients (s : HubState) : List (String × Bool × Json) :=
  s.clients.map (fun e =>
    (e.1, s.activeClientId == some e.1, jsOrEmptyObj (mapGet s.clientInfoMap e.1)))

/-- The `unity_listClients` tool callback: it only reads the current client
list and filters on `productName`; it changes no state and emits no events
(no snapshot clear, no UDP announce, no wait). -/
def unityListClients (s : HubState) :
    HubState × List HubEvent × List (String × Bool × Json) :=
  (s, [],
    (getConnectedClients s).filter (fun c =>
      let info := jsOrEmptyObj (some c.2.2)
      truthyOpt (jget info "productName") &&
        !(jget info "productName" == some (Json.str "Unknown")) &&
        !(jget info "productName" == some (Json.str "UnknownProject"))))

def setActiveClient (clientId : String) (s : HubState) :
    HubState × List HubEvent × Bool :=
  if !(mapHas s.clients clientId) then (s, [], false)
  else ({ s with activeClientId := some clientId },
    [HubEvent.activeClientChanged clientId], true)

def clearClients (s : HubState) : HubState :=
  { s with clients := [], clientDataBuffers := [], clientInfoMap := [] }

theorem truthy_jsOrEmptyObj (o : Option Json) : truthy (jsOrEmptyObj o) = true := by
  match o with
  | none => rfl
  | some i =>
    show truthy (if truthy i = true then i else Json.obj []) = true
    by_cases h : truthy i = true
    · rw [if_pos h]; exact h
    · rw [if_neg h]; rfl

theorem jsOrEmptyObj_idem (o : Option Json) :
    jsOrEmptyObj (some (jsOrEmptyObj o)) = jsOrEmptyObj o := by
  show (if truthy (jsOrEmptyObj o) then jsOrEmptyObj o else Json.obj []) = _
  rw [if_pos (truthy_jsOrEmptyObj o)]

/-- C1: divergence witness.  A client connects ("unity-A"), registers under a
new id ("proj-x"), and then its socket closes.  The close handler deletes the
stale connect-time id, so the hub still lists the dead client and keeps it
active: the claim that the record is removed on close (also for rewritten
ids) fails. -/
theorem C1_close_leaves_registered_client :
    ((onSocketClose "unity-A"
        (handleRegistration "unity-A" "proj-x"
          (Json.obj [("productName", Json.str "P")])
          (serverConnect "A" 7 initialHub).1).1).1).clients = [("proj-x", 7)] ∧
      ((onSocketClose "unity-A"
        (handleRegistration "unity-A" "proj-x"
          (Json.obj [("productName", Json.str "P")])
          (serverConnect "A" 7 initialHub).1).1).1).activeClientId
        = some "proj-x" := by
  decide

/-- C2: divergence witness.  The close handler never touches
`pendingRequests` and emits only `clientDisconnected` — in particular no
rejection of any pending request ever happens on disconnect, contradicting
the claimed ConnectionClosed rejection of requests targeted at the
disconnecting client. -/
theorem C2_close_rejects_no_pending (s : HubState) (clientId : String) :
    ((onSocketClose clientId s).1).pendingRequests = s.pendingRequests ∧
      (onSocketClose clientId s).2 = [HubEvent.clientDisconnected clientId] :=
  ⟨rfl, rfl⟩

/-- C4: counterexample.  A response with `status:"success"`, `result` PRESENT
but `null` (falsy) and a matching id resolves the pending request with the
WHOLE response object, not with `result` as the claim ("result is present")
states: the code tests truthiness, not presence. -/
theorem C4_falsy_result_resolves_whole_object :
    processClientMessage "c"
        (serJ (Json.obj [("status", Json.str "success"), ("result", Json.null),
          ("id", Json.str "1")]))
        ⟨[("cl", 7)], some "cl", [("1", 0)], 1, [], []⟩
      = (⟨[("cl", 7)], some "cl", [], 1, [], []⟩,
         [HubEvent.resolveReq "1"
            (Json.obj [("status", Json.str "success"), ("result", Json.null),
              ("id", Json.str "1")])]) := by
  decide

/-- C4 amended: truthiness-based resolution.  For a framed non-registration
message with truthy `id`: if `status == "success"` and `result` is TRUTHY and
the id is pending, the request resolves with `result`; otherwise, if the id
is pending, it resolves with the whole object; ids that match no pending
request are dropped silently. -/
theorem C4_truthiness_resolution (s : HubState) (c : String) (v : Json)
    (hreg : ¬ jget v "type" = some (Json.str "registration"))
    (hid : truthyOpt (jget v "id") = true) :
    (jget v "status" = some (Json.str "success") ∧
        truthyOpt (jget v "result") = true →
      mapHas s.pendingRequests (strOfOpt (jget v "id")) = true →
      processClientMessage c (serJ v) s
        = ({ s with pendingRequests :=
              mapDelete s.pendingRequests (strOfOpt (jget v "id")) },
           [HubEvent.resolveReq (strOfOpt (jget v "id"))
              ((jget v "result").getD Json.null)])) ∧
    (¬(jget v "status" = some (Json.str "success") ∧
        truthyOpt (jget v "result") = true) →
      mapHas s.pendingRequests (strOfOpt (jget v "id")) = true →
      processClientMessage c (serJ v) s
        = ({ s with pendingRequests :=
              mapDelete s.pendingRequests (strOfOpt (jget v "id")) },
           [HubEvent.resolveReq (strOfOpt (jget v "id")) v])) ∧
    (mapHas s.pendingRequests (strOfOpt (jget v "id")) = false →
      processClientMessage c (serJ v) s = (s, [])) := by
  have hne : ¬ (serJ v = []) := serJ_ne_nil v
  refine ⟨?_, ?_, ?_⟩
  · intro h1 h2
    simp only [processClientMessage]
    rw [if_neg hne, jsonParse_ser]
    simp only
    rw [if_neg hreg, if_pos ⟨h1.1, h1.2, hid⟩, if_pos h2]
  · intro h1 h2
    simp only [processClientMessage]
    rw [if_neg hne, jsonParse_ser]
    simp only
    rw [if_neg hreg, if_neg (fun hc => h1 ⟨hc.1, hc.2.1⟩), if_pos hid, if_pos h2]
  · intro h2
    have h2c : ¬ mapHas s.pendingRequests (strOfOpt (jget v "id")) = true := by
      simp [h2]
    simp only [processClientMessage]
    rw [if_neg hne, jsonParse_ser]
    simp only
    rw [if_neg hreg]
    by_cases hc : jget v "status" = some (Json.str "success") ∧
        truthyOpt (jget v "result") = true ∧ truthyOpt (jget v "id") = true
    · rw [if_pos hc, if_neg h2c]
    · rw [if_neg hc, if_pos hid, if_neg h2c]

/-- Witness for the amended C4 theorem: a matching pending id with truthy
result resolves with the result, and at this input the other two branch
conditions behave as stated. -/
theorem C4_truthiness_resolution_witness :
    (jget (Json.obj [("status", Json.str "success"), ("result", Json.obj []),
          ("id", Json.str "1")]) "status" = some (Json.str "success") ∧
        truthyOpt (jget (Json.obj [("status", Json.str "success"),
          ("result", Json.obj []), ("id", Json.str "1")]) "result") = true →
      mapHas ([("1", 0)] : List (String × Nat))
          (strOfOpt (jget (Json.obj [("status", Json.str "success"),
            ("result", Json.obj []), ("id", Json.str "1")]) "id")) = true →
      processClientMessage "c"
          (serJ (Json.obj [("status", Json.str "success"),
            ("result", Json.obj []), ("id", Json.str "1")]))
          ⟨[("cl", 7)], some "cl", [("1", 0)], 1, [], []⟩
        = ({ (⟨[("cl", 7)], some "cl", [("1", 0)], 1, [], []⟩ : HubState) with
              pendingRequests := mapDelete [("1", 0)]
                (strOfOpt (jget (Json.obj [("status", Json.str "success"),
                  ("result", Json.obj []), ("id", Json.str "1")]) "id")) },
           [HubEvent.resolveReq
              (strOfOpt (jget (Json.obj [("status", Json.str "success"),
                ("result", Json.obj []), ("id", Json.str "1")]) "id"))
              ((jget (Json.obj [("status", Json.str "success"),
                ("result", Json.obj []), ("id", Json.str "1")]) "result").getD
                Json.null)])) ∧
    (¬(jget (Json.obj [("status", Json.str "success"), ("result", Json.obj []),
          ("id", Json.str "1")]) "status" = some (Json.str "success") ∧
        truthyOpt (jget (Json.obj [("status", Json.str "success"),
          ("result", Json.obj []), ("id", Json.str "1")]) "result") = true) →
      mapHas ([("1", 0)] : List (String × Nat))
          (strOfOpt (jget (Json.obj [("status", Json.str "success"),
            ("result", Json.obj []), ("id", Json.str "1")]) "id")) = true →
      processClientMessage "c"
          (serJ (Json.obj [("status", Json.str "success"),
            ("result", Json.obj []), ("id", Json.str "1")]))
          ⟨[("cl", 7)], some "cl", [("1", 0)], 1, [], []⟩
        = ({ (⟨[("cl", 7)], some "cl", [("1", 0)], 1, [], []⟩ : HubState) with
              pendingRequests := mapDelete [("1", 0)]
                (strOfOpt (jget (Json.obj [("status", Json.str "success"),
                  ("result", Json.obj []), ("id", Json.str "1")]) "id")) },
           [HubEvent.resolveReq
              (strOfOpt (jget (Json.obj [("status", Json.str "success"),
                ("result", Json.obj []), ("id", Json.str "1")]) "id"))
              (Json.obj [("status", Json.str "success"), ("result", Json.obj []),
                ("id", Json.str "1")])])) ∧
    (mapHas ([("1", 0)] : List (String × Nat))
          (strOfOpt (jget (Json.obj [("status", Json.str "success"),
            ("result", Json.obj []), ("id", Json.str "1")]) "id")) = false →
      processClientMessage "c"
          (serJ (Json.obj [("status", Json.str "success"),
            ("result", Json.obj []), ("id", Json.str "1")]))
          ⟨[("cl", 7)], some "cl", [("1", 0)], 1, [], []⟩
        = (⟨[("cl", 7)], some "cl", [("1", 0)], 1, [], []⟩, [])) :=
  C4_truthiness_resolution ⟨[("cl", 7)], some "cl", [("1", 0)], 1, [], []⟩ "c"
    (Json.obj [("status", Json.str "success"), ("result", Json.obj []),
      ("id", Json.str "1")]) (by decide) (by decide)

/-- C5: with no connected clients, or a falsy active client id, `sendRequest`
fails immediately with the no-clients error; no id is allocated, no pending
entry is created and nothing is written to any socket. -/
theorem C5_sendRequest_requires_clients (r : Json) (s : HubState)
    (h : s.clients = [] ∨ jsFalsyStr s.activeClientId = true) :
    sendRequest r s = Except.error "No Unity clients connected" := by
  unfold sendRequest
  rcases h with h | h
  · rw [if_pos]
    rw [hasConnectedClients, h]
    rfl
  · rw [if_pos]
    rw [h, Bool.or_true]

/-- Witness for C5 on the empty hub. -/
theorem C5_sendRequest_requires_clients_witness :
    sendRequest (Json.obj []) initialHub
      = Except.error "No Unity clients connected" :=
  C5_sendRequest_requires_clients (Json.obj []) initialHub (Or.inl rfl)

/-- C6: counterexample.  Invoking the `unity_listClients` callback on a hub
with one registered client returns the filtered enumeration but changes NO
state (the client snapshot is not cleared) and emits NO event (no UDP
announce, no wait), contradicting the claimed clear/announce/wait steps. -/
theorem C6_listClients_pure :
    unityListClients
        ⟨[("id1", 3)], some "id1", [], 0, [],
          [("id1", Json.obj [("productName", Json.str "P")])]⟩
      = (⟨[("id1", 3)], some "id1", [], 0, [],
          [("id1", Json.obj [("productName", Json.str "P")])]⟩, [],
         [("id1", true, Json.obj [("productName", Json.str "P")])]) := by
  decide

/-- C6 amended: the returned enumeration is exactly the connected clients
(with their active flag and `info || {}` payload) filtered to those whose
`productName` is truthy and differs from "Unknown" and "UnknownProject". -/
theorem C6_listClients_filter (s : HubState) (id : String) (act : Bool)
    (info : Json) :
    (id, act, info) ∈ (unityListClients s).2.2 ↔
      ((∃ sock, (id, sock) ∈ s.clients) ∧
        act = (s.activeClientId == some id) ∧
        info = jsOrEmptyObj (mapGet s.clientInfoMap id) ∧
        truthyOpt (jget info "productName") = true ∧
        ¬ jget info "productName" = some (Json.str "Unknown") ∧
        ¬ jget info "productName" = some (Json.str "UnknownProject")) := by
  simp only [unityListClients, getConnectedClients, List.mem_filter, List.mem_map,
    Bool.and_eq_true, Bool.not_eq_true', beq_eq_false_iff_ne, Prod.mk.injEq]
  constructor
  · rintro ⟨⟨e, he, rfl, rfl, rfl⟩, hp⟩
    rw [jsOrEmptyObj_idem] at hp
    exact ⟨⟨e.2, he⟩, rfl, rfl, hp.1.1, hp.1.2, hp.2⟩
  · rintro ⟨⟨sock, hmem⟩, rfl, rfl, h1, h2, h3⟩
    refine ⟨⟨(id, sock), hmem, rfl, rfl, rfl⟩, ?_⟩
    rw [jsOrEmptyObj_idem]
    exact ⟨⟨h1, h2⟩, h3⟩

/-! ### MCP adapter (`HandlerAdapter`) and `BaseCommandHandler.execute` -/

/- JS template-literal / `String(...)` conversion of a JSON value:
strings stay, numbers print decimally, booleans/null by name, arrays join
their elements with "," (we also print `null` elements by name, where JS
prints them as empty), plain objects display as "[object Object]". -/
mutual

def jsDisplay : Json → String
  | Json.null => "null"
  | Json.bool true => "true"
  | Json.bool false => "false"
  | Json.num n => String.mk (serInt n)
  | Json.str s => s
  | Json.arr items => jsDisplayItems items
  | Json.obj _ => "[object Object]"

def jsDisplayItems : List Json → String
  | [] => ""
  | [v] => jsDisplay v
  | v :: w :: rest => jsDisplay v ++ "," ++ jsDisplayItems (w :: rest)

end

structure ToolCallResult where
  isError : Bool
  text : String
deriving DecidableEq

/-- The tool callback of `HandlerAdapter.registerHandlerTools`, applied to
the object the handler's `execute` resolved with (the catch branch is
unreachable for `BaseCommandHandler.execute`, which never rejects). -/
def toolCallback (result : Json) : ToolCallResult :=
  if jget result "success" = some (Json.bool false) ∧
      truthyOpt (jget result "error") = true then
    ⟨true, "Error: " ++ jsDisplay ((jget result "error").getD Json.null)⟩
  else
    ⟨false, stringify result⟩

/-- A thrown JS value: an `Error` instance (with `name`/`message`) or any
other value (with its string conversion). -/
inductive JsErr
  | errorInst (name message : String)
  | nonError (display : String)
deriving DecidableEq

def errMessage : JsErr → String
  | .errorInst _ m => m
  | .nonError d => d

def errType : JsErr → String
  | .errorInst n _ => if n == "" then "Error" else n
  | .nonError _ => "UnknownError"

/-- `BaseCommandHandler.execute`: the whole body is wrapped in try/catch, so
the result is a plain value for every behavior of `ensureUnityConnection`
(`ensureStep`) and of the subclass's `executeCommand` (`runStep`). -/
def executeBase (commandPrefix action timestamp : String)
    (ensureStep : Except JsErr Unit) (runStep : Except JsErr Json) : Json :=
  let errJson := fun (ex : JsErr) =>
    Json.obj [("success", Json.bool false),
      ("error", Json.str (errMessage ex)),
      ("errorDetails", Json.obj
        [("command", Json.str (commandPrefix ++ "." ++ action)),
         ("timestamp", Json.str timestamp),
         ("type", Json.str (errType ex))])]
  match ensureStep with
  | .error ex => errJson ex
  | .ok _ =>
    match runStep with
    | .error ex => errJson ex
    | .ok v => v

/-- C8: counterexample.  A handler result with `success: false` but no
`error` field is returned as ORDINARY stringified text (isError is not set),
because the adapter requires `success === false` AND a truthy `error`. -/
theorem C8_success_false_without_error_is_plain_text :
    jget (Json.obj [("success", Json.bool false)]) "success"
        = some (Json.bool false) ∧
      toolCallback (Json.obj [("success", Json.bool false)])
        = ⟨false, stringify (Json.obj [("success", Json.bool false)])⟩ := by
  decide

/-- C8 amended: the adapter surfaces a tool-level error (isError with an
`Error:`-prefixed message) exactly when `success === false` and `error` is
truthy; in every other case it returns the stringified result as ordinary
text. -/
theorem C8_error_surfacing (v : Json) :
    (jget v "success" = some (Json.bool false) ∧
        truthyOpt (jget v "error") = true →
      toolCallback v
        = ⟨true, "Error: " ++ jsDisplay ((jget v "error").getD Json.null)⟩) ∧
    (¬(jget v "success" = some (Json.bool false) ∧
        truthyOpt (jget v "error") = true) →
      toolCallback v = ⟨false, stringify v⟩) := by
  constructor
  · intro h
    rw [toolCallback, if_pos h]
  · intro h
    rw [toolCallback, if_neg h]

/-- Witness for the amended C8 theorem at `{success:false, error:"boom"}`. -/
theorem C8_error_surfacing_witness :
    (jget (Json.obj [("success", Json.bool false), ("error", Json.str "boom")])
          "success" = some (Json.bool false) ∧
        truthyOpt (jget (Json.obj [("success", Json.bool false),
          ("error", Json.str "boom")]) "error") = true →
      toolCallback (Json.obj [("success", Json.bool false),
          ("error", Json.str "boom")])
        = ⟨true, "Error: " ++ jsDisplay ((jget (Json.obj
            [("success", Json.bool false), ("error", Json.str "boom")])
            "error").getD Json.null)⟩) ∧
    (¬(jget (Json.obj [("success", Json.bool false), ("error", Json.str "boom")])
          "success" = some (Json.bool false) ∧
        truthyOpt (jget (Json.obj [("success", Json.bool false),
          ("error", Json.str "boom")]) "error") = true) →
      toolCallback (Json.obj [("success", Json.bool false),
          ("error", Json.str "boom")])
        = ⟨false, stringify (Json.obj [("success", Json.bool false),
            ("error", Json.str "boom")])⟩) :=
  C8_error_surfacing
    (Json.obj [("success", Json.bool false), ("error", Json.str "boom")])

/-- C10: `execute` resolves for every behavior of its two fallible steps:
either it passes the subclass result through, or it resolves with the
`{success:false, error, errorDetails{command,timestamp,type}}` object built
from the caught exception — it never rejects. -/
theorem C10_execute_always_resolves (cp action ts : String)
    (e1 : Except JsErr Unit) (e2 : Except JsErr Json) :
    (∃ v, e1 = Except.ok () ∧ e2 = Except.ok v ∧
      executeBase cp action ts e1 e2 = v) ∨
    (∃ ex, (e1 = Except.error ex ∨ (e1 = Except.ok () ∧ e2 = Except.error ex)) ∧
      executeBase cp action ts e1 e2
        = Json.obj [("success", Json.bool false),
            ("error", Json.str (errMessage ex)),
            ("errorDetails", Json.obj
              [("command", Json.str (cp ++ "." ++ action)),
               ("timestamp", Json.str ts),
               ("type", Json.str (errType ex))])]) := by
  match e1 with
  | .error ex => exact Or.inr ⟨ex, Or.inl rfl, rfl⟩
  | .ok u =>
    cases u
    match e2 with
    | .error ex => exact Or.inr ⟨ex, Or.inr ⟨rfl, rfl⟩, rfl⟩
    | .ok v => exact Or.inl ⟨v, rfl, rfl, rfl⟩

/-! ### Prompt template substitution (`HandlerAdapter.applyTemplateParams`)

`result.replace(new RegExp(`\x7b${key}\x7d`, 'g'), String(value))` scans
left to right and replaces every leftmost, non-overlapping match of the
pattern, sequentially over `Object.entries(params)` in insertion order.
The source builds the pattern as a REGEX from the raw key and passes the
value as a `replace` replacement string, so a key containing a RegExp
metacharacter is interpreted as regex syntax and a `$` in the value starts
a replacement pattern (`$$`, `$&`, ...).  The embedding below treats the
pattern as the literal string `\x7bkey\x7d` and inserts the value verbatim;
this coincides with the source exactly on the regex-literal fragment — every
key character satisfies `regexPlain` and the stringified value contains no
`$` — and every theorem about `applyTemplateParams` restricts its inputs to
that fragment.  The recursion is driven by a fuel bounded by the haystack
length (every step consumes at least one haystack character). -/

/-- Characters that stand for themselves in a `RegExp` pattern.  The literal
reading of `new RegExp("\x7b" + key + "\x7d", 'g')` is valid only for keys
made of these. -/
def regexPlain (c : Char) : Prop :=
  c ∉ (['\\', '^', '$', '.', '|', '?', '*', '+',
        '(', ')', '[', ']', '{', '}'] : List Char)

instance (c : Char) : Decidable (regexPlain c) :=
  inferInstanceAs (Decidable (c ∉ _))

def replaceAllL : Nat → List Char → List Char → List Char → List Char
  | 0, _, _, s => s
  | _ + 1, _, _, [] => []
  | fuel + 1, pat, rep, c :: rest =>
    if pat ≠ [] ∧ pat.isPrefixOf (c :: rest) then
      rep ++ replaceAllL fuel pat rep ((c :: rest).drop pat.length)
    else c :: replaceAllL fuel pat rep rest

def jsReplaceAll (pat rep s : List Char) : List Char :=
  replaceAllL s.length pat rep s

def applyTemplateParams (template : List Char)
    (params : List (String × Json)) : List Char :=
  params.foldl
    (fun result kv =>
      jsReplaceAll ('{' :: kv.1.data ++ ['}']) (jsDisplay kv.2).data result)
    template

/-- A template, parsed into literal chunks and `\x7bkey\x7d` placeholders. -/
inductive Seg
  | lit (s : List Char)
  | hole (k : List Char)
deriving DecidableEq

def segText : Seg → List Char
  | .lit s => s
  | .hole k => '{' :: k ++ ['}']

def renderT (segs : List Seg) : List Char :=
  (segs.map segText).flatten

def segOK : Seg → Prop
  | .lit s => '{' ∉ s ∧ '}' ∉ s
  | .hole k => '{' ∉ k ∧ '}' ∉ k

instance : (sg : Seg) → Decidable (segOK sg)
  | .lit _ => instDecidableAnd
  | .hole _ => instDecidableAnd

def substSeg (kd rep : List Char) : Seg → Seg
  | .lit s => .lit s
  | .hole h => if h = kd then .lit rep else .hole h

def finalSeg (params : List (String × Json)) : Seg → List Char
  | .lit s => s
  | .hole h =>
    match params.find? (fun kv => kv.1.data == h) with
    | some kv => (jsDisplay kv.2).data
    | none => '{' :: h ++ ['}']

theorem replaceAllL_zero_fuel (pat rep s : List Char) :
    replaceAllL 0 pat rep s = s := rfl

theorem replaceAllL_nil (fuel : Nat) (pat rep : List Char) :
    replaceAllL fuel pat rep [] = [] := by
  cases fuel <;> rfl

theorem replaceAllL_lit (pat rep : List Char) (hpat : pat.head? = some '{') :
    ∀ (s : List Char) (fuel : Nat) (t : List Char), '{' ∉ s → s.length ≤ fuel →
      replaceAllL fuel pat rep (s ++ t)
        = s ++ replaceAllL (fuel - s.length) pat rep t := by
  match pat, hpat with
  | p0 :: pt, hpat =>
  have hp0 : p0 = '{' := by simpa using hpat
  subst hp0
  intro s
  induction s with
  | nil => intro fuel t h1 h2; simp
  | cons c s2 ih =>
    intro fuel t h1 h2
    have hc : ¬ c = '{' := fun he => h1 (he ▸ List.mem_cons_self _ _)
    have hs2 : '{' ∉ s2 := fun hm => h1 (List.mem_cons_of_mem _ hm)
    cases fuel with
    | zero => exact absurd h2 (by simp)
    | succ f =>
      simp only [List.cons_append, replaceAllL, List.append_eq]
      rw [if_neg]
      · rw [ih f t hs2 (by simpa using h2)]
        simp [Nat.succ_sub_succ]
      · rintro ⟨-, hpre⟩
        simp only [List.isPrefixOf, Bool.and_eq_true, beq_iff_eq] at hpre
        exact hc hpre.1.symm

theorem replaceAllL_hit (kd rep t : List Char) (fuel : Nat) :
    replaceAllL (fuel + 1) ('{' :: kd ++ ['}']) rep (('{' :: kd ++ ['}']) ++ t)
      = rep ++ replaceAllL fuel ('{' :: kd ++ ['}']) rep t := by
  simp only [List.cons_append, replaceAllL, List.append_eq]
  rw [if_pos]
  · congr 1
    congr 1
    have hsplit : ('{' :: (kd ++ ['}'] ++ t)) = ('{' :: (kd ++ ['}'])) ++ t := by simp
    rw [hsplit]
    exact List.drop_left' rfl
  · refine ⟨by simp, ?_⟩
    have : ('{' :: (kd ++ ['}'] ++ t)) = ('{' :: kd ++ ['}']) ++ t := by simp
    rw [this]
    exact List.isPrefixOf_iff_prefix.mpr ⟨t, rfl⟩

theorem keyPrefix : ∀ (kd h t : List Char), '}' ∉ kd → '}' ∉ h →
    (kd ++ ['}']).isPrefixOf (h ++ '}' :: t) = true → kd = h := by
  intro kd
  induction kd with
  | nil =>
    intro h t _ hh hpre
    cases h with
    | nil => rfl
    | cons c h2 =>
      simp only [List.nil_append, List.cons_append, List.isPrefixOf,
        Bool.and_eq_true, beq_iff_eq] at hpre
      exact absurd (hpre.1 ▸ List.mem_cons_self _ _) hh
  | cons a kd2 ih =>
    intro h t hk hh hpre
    cases h with
    | nil =>
      simp only [List.cons_append, List.nil_append, List.isPrefixOf,
        Bool.and_eq_true, beq_iff_eq] at hpre
      exact absurd (hpre.1 ▸ List.mem_cons_self _ _) hk
    | cons b h2 =>
      simp only [List.cons_append, List.isPrefixOf, Bool.and_eq_true,
        beq_iff_eq] at hpre
      have hk2 : '}' ∉ kd2 := fun hm => hk (List.mem_cons_of_mem _ hm)
      have hh2 : '}' ∉ h2 := fun hm => hh (List.mem_cons_of_mem _ hm)
      rw [hpre.1, ih h2 t hk2 hh2 hpre.2]

theorem replaceAllL_miss (kd rep : List Char) (hkd : '}' ∉ kd) :
    ∀ (h t : List Char) (fuel : Nat), '{' ∉ h → '}' ∉ h → ¬ h = kd →
      h.length + 2 ≤ fuel →
      replaceAllL fuel ('{' :: kd ++ ['}']) rep (('{' :: h ++ ['}']) ++ t)
        = ('{' :: h ++ ['}'])
            ++ replaceAllL (fuel - (h.length + 2)) ('{' :: kd ++ ['}']) rep t := by
  intro h t fuel hb1 hb2 hne hfuel
  cases fuel with
  | zero => omega
  | succ f =>
    simp only [List.cons_append, replaceAllL, List.append_eq]
    rw [if_neg]
    · have hstep : (h ++ ['}'] ++ t) = h ++ ('}' :: t) := by simp
      rw [hstep, replaceAllL_lit ('{' :: (kd ++ ['}'])) rep rfl h f ('}' :: t) hb1
        (by omega)]
      have hf2 : f - h.length = (f - h.length - 1) + 1 := by omega
      rw [hf2]
      simp only [replaceAllL]
      rw [if_neg]
      · have : f - h.length - 1 = f + 1 - (h.length + 2) := by omega
        rw [this]
        simp
      · rintro ⟨-, hpre⟩
        simp only [List.isPrefixOf, Bool.and_eq_true, beq_iff_eq] at hpre
        exact absurd hpre.1 (by decide)
    · rintro ⟨-, hpre⟩
      simp only [List.isPrefixOf, Bool.and_eq_true, beq_iff_eq] at hpre
      have : (kd ++ ['}']).isPrefixOf (h ++ '}' :: t) = true := by
        have hx : (h ++ ['}'] ++ t) = h ++ '}' :: t := by simp
        rw [← hx]
        exact hpre.2
      exact hne (keyPrefix kd h t hkd hb2 this).symm

theorem passSegs (kd rep : List Char) (hkd2 : '}' ∉ kd) :
    ∀ (segs : List Seg) (fuel : Nat), (∀ sg ∈ segs, segOK sg) →
      (renderT segs).length ≤ fuel →
      replaceAllL fuel ('{' :: kd ++ ['}']) rep (renderT segs)
        = renderT (segs.map (substSeg kd rep)) := by
  intro segs
  induction segs with
  | nil => intro fuel _ _; simp [renderT, replaceAllL_nil]
  | cons sg rest ih =>
    intro fuel hok hlen
    have hokr : ∀ x ∈ rest, segOK x := fun x hx => hok x (List.mem_cons_of_mem _ hx)
    match sg with
    | .lit s =>
      have hs := hok (.lit s) (List.mem_cons_self _ _)
      have hrt : renderT (Seg.lit s :: rest) = s ++ renderT rest := by
        simp [renderT, segText]
      rw [hrt] at hlen ⊢
      simp only [List.length_append] at hlen
      rw [replaceAllL_lit ('{' :: kd ++ ['}']) rep rfl s fuel (renderT rest) hs.1
        (by omega)]
      rw [ih (fuel - s.length) hokr (by omega)]
      simp [renderT, segText, substSeg]
    | .hole h =>
      have hh := hok (.hole h) (List.mem_cons_self _ _)
      have hrt : renderT (Seg.hole h :: rest) = ('{' :: h ++ ['}']) ++ renderT rest := by
        simp [renderT, segText]
      rw [hrt] at hlen ⊢
      simp only [List.length_append, List.length_cons] at hlen
      by_cases hcase : h = kd
      · subst hcase
        cases fuel with
        | zero => exfalso; omega
        | succ f =>
          rw [replaceAllL_hit h rep (renderT rest) f]
          rw [ih f hokr (by omega)]
          simp [renderT, segText, substSeg]
      · rw [replaceAllL_miss kd rep hkd2 h (renderT rest) fuel hh.1 hh.2 hcase
          (by omega)]
        rw [ih (fuel - (h.length + 2)) hokr (by omega)]
        simp [renderT, segText, substSeg, hcase]

theorem finalSeg_nil (sg : Seg) : finalSeg [] sg = segText sg := by
  cases sg <;> rfl

theorem finalSeg_subst (kv : String × Json) (rest : List (String × Json))
    (sg : Seg) :
    finalSeg rest (substSeg kv.1.data (jsDisplay kv.2).data sg)
      = finalSeg (kv :: rest) sg := by
  match sg with
  | .lit s => rfl
  | .hole h =>
    by_cases hc : h = kv.1.data
    · subst hc
      simp [substSeg, finalSeg]
    · simp [substSeg, finalSeg, hc, Ne.symm hc]

theorem applyTemplateParams_render : ∀ (params : List (String × Json))
    (segs : List Seg),
    (∀ sg ∈ segs, segOK sg) →
    (∀ kv ∈ params, ('{' ∉ kv.1.data ∧ '}' ∉ kv.1.data) ∧
      ('{' ∉ (jsDisplay kv.2).data ∧ '}' ∉ (jsDisplay kv.2).data)) →
    applyTemplateParams (renderT segs) params
      = (segs.map (finalSeg params)).flatten := by
  intro params
  induction params with
  | nil =>
    intro segs hok hpar
    show renderT segs = _
    unfold renderT
    exact congrArg List.flatten
      (List.map_congr_left (fun sg _ => (finalSeg_nil sg).symm))
  | cons kv rest ih =>
    intro segs hok hpar
    have hkv := hpar kv (List.mem_cons_self _ _)
    have hrest : ∀ x ∈ rest, ('{' ∉ x.1.data ∧ '}' ∉ x.1.data) ∧
        ('{' ∉ (jsDisplay x.2).data ∧ '}' ∉ (jsDisplay x.2).data) :=
      fun x hx => hpar x (List.mem_cons_of_mem _ hx)
    have hstep : applyTemplateParams (renderT segs) (kv :: rest)
        = applyTemplateParams
            (jsReplaceAll ('{' :: kv.1.data ++ ['}']) (jsDisplay kv.2).data
              (renderT segs)) rest := rfl
    rw [hstep]
    have hpass : jsReplaceAll ('{' :: kv.1.data ++ ['}']) (jsDisplay kv.2).data
        (renderT segs)
        = renderT (segs.map (substSeg kv.1.data (jsDisplay kv.2).data)) := by
      unfold jsReplaceAll
      exact passSegs kv.1.data (jsDisplay kv.2).data hkv.1.2 segs
        (renderT segs).length hok (le_refl _)
    rw [hpass]
    have hok2 : ∀ sg2 ∈ segs.map (substSeg kv.1.data (jsDisplay kv.2).data),
        segOK sg2 := by
      intro sg2 hsg2
      rw [List.mem_map] at hsg2
      obtain ⟨sg, hsg, rfl⟩ := hsg2
      have hsgok := hok sg hsg
      match sg with
      | .lit s => exact hsgok
      | .hole h =>
        by_cases hc : h = kv.1.data
        · simp only [substSeg, if_pos hc]
          exact hkv.2
        · simp only [substSeg, if_neg hc]
          exact hsgok
    rw [ih (segs.map (substSeg kv.1.data (jsDisplay kv.2).data)) hok2 hrest]
    rw [List.map_map]
    congr 1
    exact List.map_congr_left (fun sg _ => finalSeg_subst kv rest sg)

/-- C9: counterexample.  Template "\x7ba\x7d" with params
`a ↦ "\x7bb\x7d", b ↦ "X"`: the sequential global-replace passes
re-substitute inside the value inserted for `a`, so the rendered text is
"X" — it does not contain `M[a]` = "\x7bb\x7d" at the position of the `a`
placeholder as the claim requires.  (The keys "a" and "b" are regex-plain
and the values contain no `$`, so on these inputs the literal model renders
exactly what the source's regex-based replace renders.) -/
theorem C9_resubstitution :
    applyTemplateParams (renderT [Seg.hole ['a']])
        [("a", Json.str "{b}"), ("b", Json.str "X")] = ['X'] := by
  decide

/-- C9 amended: on templates split into brace-free literal chunks and
placeholders, with keys made of regex-plain characters (so the RegExp built
from the key matches it literally) and stringified values that are brace-free
and contain no `$` (so the replacement string is inserted verbatim and later
passes cannot re-substitute inside it), the rendered text is the template
with each placeholder whose key occurs in the parameter list replaced (at
its position) by the first matching value, and every other placeholder and
literal chunk left unchanged. -/
theorem C9_template_substitution : ∀ (params : List (String × Json))
    (segs : List Seg),
    (∀ sg ∈ segs, segOK sg) →
    (∀ kv ∈ params, (∀ c ∈ kv.1.data, regexPlain c) ∧
      ('{' ∉ (jsDisplay kv.2).data ∧ '}' ∉ (jsDisplay kv.2).data) ∧
      '$' ∉ (jsDisplay kv.2).data) →
    applyTemplateParams (renderT segs) params
      = (segs.map (finalSeg params)).flatten := by
  intro params segs hseg hpar
  apply applyTemplateParams_render params segs hseg
  intro kv hkv
  obtain ⟨hk, hv, -⟩ := hpar kv hkv
  exact ⟨⟨fun hm => hk '{' hm (by decide), fun hm => hk '}' hm (by decide)⟩, hv⟩

/-- Witness for the amended C9 theorem on the template "H\x7ba\x7d". -/
theorem C9_template_substitution_witness :
    applyTemplateParams (renderT [Seg.lit ['H'], Seg.hole ['a']])
        [("a", Json.str "w")]
      = ([Seg.lit ['H'], Seg.hole ['a']].map
          (finalSeg [("a", Json.str "w")])).flatten :=
  C9_template_substitution [("a", Json.str "w")] [Seg.lit ['H'], Seg.hole ['a']]
    (by decide) (by decide)
